import Mathlib

/-
Verification of the range-set data structure (lib/ranges/ranges.go) and of
the VFS File / RWFileHandle state machine (vfs package) of this repository.

Go code is shallowly embedded: pure functions become Lean functions on
unbounded integers (Go int64 arithmetic never overflows for the byte
ranges and counters in scope), in-place slice mutation becomes functional
list transformation, and the stateful handle code becomes explicit state
passing with collaborator outcomes (cache, OS file) supplied by an
environment record.
-/

namespace ranges

/-- Model of type Range from lib/ranges/ranges.go: the byte range
[Pos, Pos+Size). Go int64 fields are modelled as unbounded integers. -/
structure Range where
  Pos : Int
  Size : Int
deriving DecidableEq, Repr

/-- Method Range.End: the end of the Range. -/
def Range.End (r : Range) : Int := r.Pos + r.Size

/-- Method Range.IsEmpty: true if the range has no size. -/
def Range.IsEmpty (r : Range) : Bool := decide (r.Size ≤ 0)

/-- Method Range.Intersection: the common Range of two Ranges; a range with
IsEmpty true when there is no intersection (the zero Range in that case). -/
def Range.Intersection (r b : Range) : Range :=
  if (r.Pos ≥ b.Pos ∧ r.Pos < b.End) ∨ (b.Pos ≥ r.Pos ∧ b.Pos < r.End) then
    { Pos := max r.Pos b.Pos, Size := min r.End b.End - max r.Pos b.Pos }
  else
    { Pos := 0, Size := 0 }

/-- Function merge: merge Range new into dst if possible; requires
dst.Pos ≥ new.Pos. The source mutates dst and returns true on merge; here
the updated dst is returned as some, and none means not merged. -/
def merge (nw dst : Range) : Option Range :=
  if nw.End < dst.Pos then none
  else some { Pos := nw.Pos
            , Size := if nw.End > dst.End then nw.Size
                      else dst.Size + (dst.Pos - nw.Pos) }

/-- Model of type Ranges: a number of Range segments, kept sorted and
coalesced by Ranges.Insert. -/
abbrev Ranges := List Range

/-- Forward phase of Ranges.coalesce (the loop for j := i; ...): repeatedly
merge the accumulated element into its successor while merge succeeds,
returning the accumulated element and the untouched remainder. -/
def coalesceFrom (v : Range) : List Range → Range × List Range
  | [] => (v, [])
  | d :: rest =>
    match merge v d with
    | none => (v, d :: rest)
    | some m => coalesceFrom m rest

/-- Method Ranges.coalesce: coalesce ranges assuming an element has been
inserted at index i. The source merges the previous element into position i
when possible, then merges forward, and finally chops the consumed entries
out; functionally the result is the untouched strict prefix, the fully
merged element and the untouched remainder. -/
def Ranges.coalesce (rs : Ranges) (i : Nat) : Ranges :=
  match rs.drop i with
  | [] => rs
  | x :: suf =>
    match (rs.take i).getLast? with
    | some p =>
      match merge p x with
      | some m =>
        let res := coalesceFrom m suf
        (rs.take i).dropLast ++ res.1 :: res.2
      | none =>
        let res := coalesceFrom x suf
        rs.take i ++ res.1 :: res.2
    | none =>
      let res := coalesceFrom x suf
      res.1 :: res.2

/-- Loop of Go sort.Search on the interval [i, j): binary search returning
the least index at which the (monotone) predicate holds, or j when none.
The loop runs while i < j and the width j - i shrinks every iteration, so
it is embedded structurally on a fuel bound of at least j - i; with enough
fuel the fuel never runs out (searchLoop_spec assumes exactly that). -/
def searchLoop (f : Nat → Bool) : Nat → Nat → Nat → Nat
  | 0, i, _ => i
  | fuel + 1, i, j =>
    if i < j then
      let m := (i + j) / 2
      if f m then searchLoop f fuel i m else searchLoop f fuel (m + 1) j
    else i

/-- Method Ranges.search: finds the first Range in rs that has Pos ≥ r.Pos,
via sort.Search; the return takes values 0..rs.length. Probes are only made
at valid indices, so the getD default is never consulted; rs.length fuel
bounds the initial width of the interval. -/
def Ranges.search (rs : Ranges) (r : Range) : Nat :=
  searchLoop (fun i => decide ((rs.getD i ⟨0, 0⟩).Pos ≥ r.Pos)) rs.length 0 rs.length

/-- Method Ranges.Insert: insert the new Range into a sorted and coalesced
slice of Ranges; the result is sorted and coalesced. -/
def Ranges.Insert (rs : Ranges) (r : Range) : Ranges :=
  if r.IsEmpty then rs
  else if rs.isEmpty then [r]
  else
    let i := rs.search r
    if i = rs.length then Ranges.coalesce (rs ++ [r]) i
    else
      match merge r (rs.getD i ⟨0, 0⟩) with
      | none => Ranges.coalesce (rs.insertIdx i r) i
      | some m => Ranges.coalesce (rs.set i m) i

/-- Method Ranges.Find: searches for r in rs and returns (curr, next,
present) where curr is the Range found, next is the Range to present to
Find next, and present shows whether curr is present or absent. -/
def Ranges.Find (rs : Ranges) (r : Range) : Range × Range × Bool :=
  if r.IsEmpty then (r, ⟨0, 0⟩, false)
  else
    let i := rs.search r
    let fromPrev : Option (Range × Range × Bool) :=
      if i > 0 then
        let prev := rs.getD (i - 1) ⟨0, 0⟩
        let intersection := prev.Intersection r
        if intersection.IsEmpty then none
        else some (intersection, ⟨intersection.End, r.Size - intersection.Size⟩, true)
      else none
    match fromPrev with
    | some out => out
    | none =>
      if i ≥ rs.length then (r, ⟨0, 0⟩, false)
      else
        let found := rs.getD i ⟨0, 0⟩
        let intersection := found.Intersection r
        if intersection.IsEmpty then (r, ⟨0, 0⟩, false)
        else if r.Pos < intersection.Pos then
          let curr : Range := ⟨r.Pos, intersection.Pos - r.Pos⟩
          (curr, ⟨curr.End, r.Size - curr.Size⟩, false)
        else (intersection, ⟨intersection.End, r.Size - intersection.Size⟩, true)

/-- Method Ranges.Present: whether r can be satisfied by rs, through a
single Find call. -/
def Ranges.Present (rs : Ranges) (r : Range) : Bool :=
  if r.IsEmpty then true
  else
    let out := rs.Find r
    if out.2.2 = false then false
    else if out.2.1.IsEmpty then true
    else false

/-- Method Ranges.Size: the total size of all the segments, accumulated in
slice order. -/
def Ranges.Size (rs : Ranges) : Int := rs.foldl (fun size r => size + r.Size) 0

/-- Characterisation of IsEmpty being false. -/
theorem Range.isEmpty_eq_false {r : Range} : r.IsEmpty = false ↔ 0 < r.Size := by
  simp [Range.IsEmpty]

/-- Characterisation of IsEmpty being true. -/
theorem Range.isEmpty_eq_true {r : Range} : r.IsEmpty = true ↔ r.Size ≤ 0 := by
  simp [Range.IsEmpty]

/-- Termination measure for the Find loop of Ranges.Intersection: the next
range handed back by Find is strictly smaller than its input whenever the
input is non-empty (needed because the source iterates until r.IsEmpty). -/
theorem Ranges.find_next_size_lt (rs : Ranges) (r : Range)
    (h : r.IsEmpty = false) : (rs.Find r).2.1.Size < r.Size := by
  have hr : 0 < r.Size := Range.isEmpty_eq_false.mp h
  unfold Ranges.Find
  simp only [h]
  set i := rs.search r with hi
  by_cases h0 : i > 0
  · simp only [h0, if_true]
    set prev := rs.getD (i - 1) ⟨0, 0⟩ with hprev
    by_cases he : (prev.Intersection r).IsEmpty
    · simp only [he]
      by_cases hlen : i ≥ rs.length
      · simp [hlen, hr]
      · simp only [hlen, if_false]
        set found := rs.getD i ⟨0, 0⟩ with hfound
        by_cases he2 : (found.Intersection r).IsEmpty
        · simp [he2, hr]
        · have h2 : 0 < (found.Intersection r).Size :=
            Range.isEmpty_eq_false.mp (by simpa using he2)
          by_cases hlt : r.Pos < (found.Intersection r).Pos
          · simp only [he2, Bool.false_eq_true, if_false, hlt, if_true]
            simp [Range.End]
            omega
          · simp only [he2, Bool.false_eq_true, if_false, hlt, if_true]
            simp
            omega
    · have h2 : 0 < (prev.Intersection r).Size :=
        Range.isEmpty_eq_false.mp (by simpa using he)
      simp only [he, Bool.false_eq_true, if_false]
      simp
      omega
  · simp only [h0, if_false]
    by_cases hlen : i ≥ rs.length
    · simp [hlen, hr]
    · simp only [hlen, if_false]
      set found := rs.getD i ⟨0, 0⟩ with hfound
      by_cases he2 : (found.Intersection r).IsEmpty
      · simp [he2, hr]
      · have h2 : 0 < (found.Intersection r).Size :=
          Range.isEmpty_eq_false.mp (by simpa using he2)
        by_cases hlt : r.Pos < (found.Intersection r).Pos
        · simp only [he2, Bool.false_eq_true, if_false, hlt, if_true]
          simp [Range.End]
          omega
        · simp only [he2, Bool.false_eq_true, if_false, hlt, if_true]
          simp
          omega

/-- Loop of Ranges.Intersection: walk r through repeated Find calls,
inserting every present chunk into the accumulator newRs. The loop runs
until r is empty, and the size of r strictly shrinks every iteration
(Ranges.find_next_size_lt), so it is embedded structurally on a fuel bound
strictly greater than r.Size; with that much fuel the fuel never runs out. -/
def Ranges.IntersectionLoop (rs : Ranges) : Nat → Range → Ranges → Ranges
  | 0, _, newRs => newRs
  | fuel + 1, r, newRs =>
    if r.IsEmpty then newRs
    else
      let out := rs.Find r
      Ranges.IntersectionLoop rs fuel out.2.1
        (if out.2.2 then newRs.Insert out.1 else newRs)

/-- Method Ranges.Intersection: works out which ranges out of rs are
entirely contained within r and returns a new Ranges. -/
def Ranges.Intersection (rs : Ranges) (r : Range) : Ranges :=
  if rs.isEmpty then rs
  else Ranges.IntersectionLoop rs (r.Size.toNat + 1) r []

/-- RangeSet invariant, as stated by the spec: every member has positive
size and every adjacent pair is separated by a strict gap
(rs[i].End < rs[i+1].Pos), which also keeps the list sorted by Pos. -/
def RangeSetInv (rs : Ranges) : Prop :=
  (∀ m ∈ rs, 0 < m.Size) ∧ rs.Chain' (fun a b => a.End < b.Pos)

/-- Executable check of the strict-gap chain condition. -/
def gapChain : Ranges → Bool
  | [] => true
  | [_] => true
  | a :: b :: t => decide (a.End < b.Pos) && gapChain (b :: t)

/-- The executable chain check decides the Chain' condition. -/
theorem gapChain_iff (rs : Ranges) :
    gapChain rs = true ↔ rs.Chain' (fun a b => a.End < b.Pos) := by
  induction rs with
  | nil => simp [gapChain]
  | cons a t ih =>
    cases t with
    | nil => simp [gapChain]
    | cons b t2 =>
      rw [List.chain'_cons, ← ih]
      simp [gapChain]

instance : DecidablePred RangeSetInv := fun rs =>
  decidable_of_iff ((rs.all fun m => decide (0 < m.Size)) = true ∧ gapChain rs = true)
    (by
      simp only [List.all_eq_true, decide_eq_true_eq, gapChain_iff]
      exact Iff.rfl)

/-- Set of byte positions covered by a list of ranges; used to state that
Size counts every covered byte exactly once and to reason about Insert,
Present and Intersection semantically. -/
def covered (rs : Ranges) : Finset Int :=
  rs.foldr (fun m acc => Finset.Ico m.Pos m.End ∪ acc) ∅

/-- Coverage of the empty list. -/
theorem covered_nil : covered [] = ∅ := rfl

/-- Coverage of a cons cell. -/
theorem covered_cons (a : Range) (rs : Ranges) :
    covered (a :: rs) = Finset.Ico a.Pos a.End ∪ covered rs := rfl

/-- Coverage distributes over append. -/
theorem covered_append (xs ys : Ranges) :
    covered (xs ++ ys) = covered xs ∪ covered ys := by
  induction xs with
  | nil => simp [covered_nil, covered]
  | cons a xs ih => simp [covered_cons, ih, Finset.union_assoc]

/-- Membership in the coverage of a list of ranges. -/
theorem mem_covered {x : Int} {rs : Ranges} :
    x ∈ covered rs ↔ ∃ m ∈ rs, m.Pos ≤ x ∧ x < m.End := by
  induction rs with
  | nil => simp [covered_nil]
  | cons a rs ih =>
    simp only [covered_cons, Finset.mem_union, Finset.mem_Ico, ih, List.mem_cons]
    constructor
    · rintro (h | ⟨m, hm, h⟩)
      · exact ⟨a, Or.inl rfl, h⟩
      · exact ⟨m, Or.inr hm, h⟩
    · rintro ⟨m, rfl | hm, h⟩
      · exact Or.inl h
      · exact Or.inr ⟨m, hm, h⟩

/-- Invariant of the empty range set. -/
theorem inv_nil : RangeSetInv ([] : Ranges) := ⟨by simp, List.chain'_nil⟩

/-- Invariant restricted to the tail. -/
theorem inv_tail {a : Range} {rs : Ranges} (h : RangeSetInv (a :: rs)) :
    RangeSetInv rs :=
  ⟨fun m hm => h.1 m (List.mem_cons_of_mem _ hm), h.2.tail⟩

/-- Head of an invariant range set ends before every later member starts. -/
theorem inv_head_lt {a : Range} {rs : Ranges} (h : RangeSetInv (a :: rs)) :
    ∀ m ∈ rs, a.End < m.Pos := by
  induction rs generalizing a with
  | nil => simp
  | cons b rs ih =>
    intro m hm
    have hab : a.End < b.Pos := (List.chain'_cons.mp h.2).1
    rcases List.mem_cons.mp hm with rfl | hm
    · exact hab
    · have hb := ih (inv_tail h) m hm
      have hbpos : 0 < b.Size := h.1 b (by simp)
      simp only [Range.End] at hab hb ⊢
      omega

/-- Cons characterisation of the invariant. -/
theorem inv_cons {a : Range} {rs : Ranges} :
    RangeSetInv (a :: rs) ↔
      0 < a.Size ∧ RangeSetInv rs ∧ ∀ m ∈ rs, a.End < m.Pos := by
  constructor
  · exact fun h => ⟨h.1 a (by simp), inv_tail h, inv_head_lt h⟩
  · rintro ⟨ha, hrs, hlt⟩
    refine ⟨?_, ?_⟩
    · intro m hm
      rcases List.mem_cons.mp hm with rfl | hm
      · exact ha
      · exact hrs.1 m hm
    · refine List.chain'_cons'.mpr ⟨?_, hrs.2⟩
      intro b hb
      exact hlt b (List.mem_of_mem_head? hb)

/-- Pairwise strict-gap ordering of an invariant range set. -/
theorem inv_pairwise_gap {rs : Ranges} (h : RangeSetInv rs) :
    rs.Pairwise fun a b => a.End < b.Pos := by
  induction rs with
  | nil => simp
  | cons a rs ih => exact List.Pairwise.cons (inv_head_lt h) (ih (inv_tail h))

/-- Pairwise strict sortedness by start position. -/
theorem inv_pairwise_pos {rs : Ranges} (h : RangeSetInv rs) :
    rs.Pairwise fun a b => a.Pos < b.Pos := by
  refine (inv_pairwise_gap h).imp_of_mem ?_
  intro a b ha _hb hab
  have := h.1 a ha
  simp only [Range.End] at hab
  omega

/-- The right endpoint of any member is never covered (the strict gap). -/
theorem end_not_covered {rs : Ranges} (h : RangeSetInv rs) {m : Range}
    (hm : m ∈ rs) : m.End ∉ covered rs := by
  intro hx
  rcases mem_covered.mp hx with ⟨q, hq, h1, h2⟩
  rcases List.mem_iff_getElem.mp hm with ⟨i, hi, rfl⟩
  rcases List.mem_iff_getElem.mp hq with ⟨j, hj, rfl⟩
  have hpw := List.pairwise_iff_getElem.mp (inv_pairwise_gap h)
  rcases lt_trichotomy i j with hij | rfl | hij
  · have := hpw i j hi hj hij
    simp only [Range.End] at *
    omega
  · simp only [Range.End] at *
    omega
  · have := hpw j i hj hi hij
    have hsz := h.1 (rs[i]) (List.getElem_mem hi)
    simp only [Range.End] at *
    omega

/-- Every covered point of an invariant cons lies at or after the head. -/
theorem covered_pos_le {a : Range} {rs : Ranges} (h : RangeSetInv (a :: rs))
    {x : Int} (hx : x ∈ covered (a :: rs)) : a.Pos ≤ x := by
  rcases mem_covered.mp hx with ⟨m, hm, h1, _h2⟩
  rcases List.mem_cons.mp hm with rfl | hm
  · exact h1
  · have hlt := inv_head_lt h m hm
    have ha := h.1 a (by simp)
    simp only [Range.End] at *
    omega

/-- Unfolding of the Size accumulator. -/
theorem size_foldl_init (rs : Ranges) (init : Int) :
    rs.foldl (fun size r => size + r.Size) init = init + Ranges.Size rs := by
  induction rs generalizing init with
  | nil => simp [Ranges.Size]
  | cons a rs ih =>
    simp only [Ranges.Size, List.foldl_cons] at *
    rw [ih, ih (0 + a.Size)]
    ring

/-- Size of a cons cell. -/
theorem Size_cons (a : Range) (rs : Ranges) :
    Ranges.Size (a :: rs) = a.Size + Ranges.Size rs := by
  simp only [Ranges.Size, List.foldl_cons]
  rw [size_foldl_init]
  ring_nf
  rw [size_foldl_init]
  ring

/-- Size of an invariant range set counts every covered byte exactly once:
it equals the cardinality of the covered set. -/
theorem covered_card {rs : Ranges} (h : RangeSetInv rs) :
    ((covered rs).card : Int) = Ranges.Size rs := by
  induction rs with
  | nil => simp [covered_nil, Ranges.Size]
  | cons a rs ih =>
    have hdisj : Disjoint (Finset.Ico a.Pos a.End) (covered rs) := by
      rw [Finset.disjoint_left]
      intro x hx hx2
      rcases Finset.mem_Ico.mp hx with ⟨_h1, h2⟩
      rcases mem_covered.mp hx2 with ⟨m, hm, h3, _h4⟩
      have := inv_head_lt h m hm
      omega
    rw [covered_cons, Finset.card_union_of_disjoint hdisj, Size_cons, ← ih (inv_tail h)]
    have ha := h.1 a (by simp)
    have : a.End - a.Pos = a.Size := by simp [Range.End]
    rw [Int.card_Ico]
    push_cast [this]
    rw [Int.toNat_of_nonneg (by omega)]

/-- Correctness of the sort.Search loop over a predicate that is monotone on
the probed interval: the result is the least index satisfying the predicate
(or j when none is). -/
theorem searchLoop_spec (f : Nat → Bool) (fuel : Nat) : ∀ (i j : Nat), i ≤ j →
    j - i ≤ fuel →
    (∀ a b, i ≤ a → a ≤ b → b < j → f a = true → f b = true) →
    i ≤ searchLoop f fuel i j ∧ searchLoop f fuel i j ≤ j ∧
      (∀ k, i ≤ k → k < searchLoop f fuel i j → f k = false) ∧
      (searchLoop f fuel i j < j → f (searchLoop f fuel i j) = true) := by
  induction fuel with
  | zero =>
    intro i j hij hfuel _hmono
    have : i = j := by omega
    subst this
    simp only [searchLoop]
    exact ⟨le_refl i, le_refl i, fun k hk1 hk2 => by omega, fun h => by omega⟩
  | succ fuel ih =>
    intro i j hij hfuel hmono
    rw [searchLoop]
    split
    case isTrue hlt =>
      set m := (i + j) / 2 with hm
      have hm1 : i ≤ m := by omega
      have hm2 : m < j := by omega
      cases hf : f m with
      | true =>
        simp only [hf, if_true]
        have IH := ih i m hm1 (by omega)
          (fun a b ha hab hb hfa => hmono a b ha hab (by omega) hfa)
        refine ⟨IH.1, by omega, IH.2.2.1, ?_⟩
        intro _hres
        rcases Nat.lt_or_ge (searchLoop f fuel i m) m with hc | hc
        · exact IH.2.2.2 hc
        · have : searchLoop f fuel i m = m := le_antisymm IH.2.1 hc
          rw [this]
          exact hf
      | false =>
        simp only [hf, Bool.false_eq_true, if_false]
        have IH := ih (m + 1) j (by omega) (by omega)
          (fun a b ha hab hb hfa => hmono a b (by omega) hab hb hfa)
        refine ⟨by omega, IH.2.1, ?_, IH.2.2.2⟩
        intro k hk1 hk2
        rcases Nat.lt_or_ge k (m + 1) with hc | hc
        · cases hfk : f k with
          | false => rfl
          | true =>
            have := hmono k m hk1 (by omega) (by omega) hfk
            rw [this] at hf
            exact absurd hf (by simp)
        · exact IH.2.2.1 k hc hk2
    case isFalse hge =>
      refine ⟨le_refl i, hij, ?_, ?_⟩
      · intro k hk1 hk2
        omega
      · intro hlt
        omega

/-- Specification of Ranges.search on a range set satisfying the invariant:
all members before the returned index start strictly before r.Pos, and the
member at the returned index (when any) starts at or after r.Pos. -/
theorem search_spec (rs : Ranges) (r : Range) (h : RangeSetInv rs) :
    rs.search r ≤ rs.length ∧
      (∀ k, k < rs.search r → (rs.getD k ⟨0, 0⟩).Pos < r.Pos) ∧
      (rs.search r < rs.length → r.Pos ≤ (rs.getD (rs.search r) ⟨0, 0⟩).Pos) := by
  have hpw := List.pairwise_iff_getElem.mp (inv_pairwise_pos h)
  have hmono : ∀ a b, 0 ≤ a → a ≤ b → b < rs.length →
      decide ((rs.getD a ⟨0, 0⟩).Pos ≥ r.Pos) = true →
      decide ((rs.getD b ⟨0, 0⟩).Pos ≥ r.Pos) = true := by
    intro a b _ha hab hb hfa
    have ha' : a < rs.length := by omega
    rw [List.getD_eq_getElem _ _ ha'] at hfa
    rw [List.getD_eq_getElem _ _ hb]
    simp only [decide_eq_true_eq] at *
    rcases Nat.lt_or_ge a b with hc | hc
    · have := hpw a b ha' hb hc
      omega
    · have : a = b := by omega
      subst this
      exact hfa
  have H := searchLoop_spec _ rs.length 0 rs.length (Nat.zero_le _) (by omega) hmono
  unfold Ranges.search
  refine ⟨H.2.1, ?_, ?_⟩
  · intro k hk
    have := H.2.2.1 k (Nat.zero_le _) hk
    simp only [decide_eq_true_eq] at this
    simp only [decide_eq_false_iff_not, not_le] at this
    exact this
  · intro hlt
    have := H.2.2.2 hlt
    simp only [decide_eq_true_eq] at this
    exact this

/-- Characterisation of merge failing. -/
theorem merge_eq_none_iff {nw dst : Range} :
    merge nw dst = none ↔ nw.End < dst.Pos := by
  unfold merge
  split <;> simp_all

/-- Endpoints of a successful merge: the merged range starts where the new
range starts and ends at the further of the two ends. -/
theorem merge_some_spec {nw dst m : Range} (h : merge nw dst = some m) :
    m.Pos = nw.Pos ∧ m.End = max nw.End dst.End := by
  unfold merge at h
  split at h
  · exact absurd h (by simp)
  · rename_i hge
    injection h with h
    subst h
    constructor
    · rfl
    · simp only [Range.End] at *
      split <;> omega

/-- A successful merge covers exactly the union of the two input ranges,
provided the precondition dst.Pos ≥ nw.Pos holds. -/
theorem merge_some_cov {nw dst m : Range} (h : merge nw dst = some m)
    (hpos : nw.Pos ≤ dst.Pos) :
    Finset.Ico m.Pos m.End = Finset.Ico nw.Pos nw.End ∪ Finset.Ico dst.Pos dst.End := by
  have hspec := merge_some_spec h
  have hnn : ¬ nw.End < dst.Pos := by
    intro hc
    rw [merge_eq_none_iff.mpr hc] at h
    exact absurd h (by simp)
  ext x
  simp only [Finset.mem_Ico, Finset.mem_union, hspec.1]
  rcases le_total nw.End dst.End with hc | hc
  · rw [hspec.2, max_eq_right hc]
    omega
  · rw [hspec.2, max_eq_left hc]
    omega

/-- Gluing two invariant range sets whose members are fully separated. -/
theorem inv_append {A B : Ranges} (hA : RangeSetInv A) (hB : RangeSetInv B)
    (hlink : ∀ a ∈ A, ∀ b ∈ B, a.End < b.Pos) : RangeSetInv (A ++ B) := by
  constructor
  · intro m hm
    rcases List.mem_append.mp hm with h | h
    · exact hA.1 m h
    · exact hB.1 m h
  · rw [List.chain'_append]
    refine ⟨hA.2, hB.2, ?_⟩
    intro a ha b hb
    have haA : a ∈ A := by
      rcases List.getLast?_eq_some_iff.mp ha with ⟨A', rfl⟩
      simp
    have hbB : b ∈ B := List.mem_of_mem_head? hb
    exact hlink a haA b hbB

/-- Decomposition of the invariant of a snoc. -/
theorem inv_concat {A : Ranges} {p : Range} (h : RangeSetInv (A ++ [p])) :
    RangeSetInv A ∧ 0 < p.Size ∧ ∀ a ∈ A, a.End < p.Pos := by
  have hpg := inv_pairwise_gap h
  rw [List.pairwise_append] at hpg
  refine ⟨⟨fun m hm => h.1 m (by simp [hm]), (List.chain'_append.mp h.2).1⟩,
    h.1 p (by simp), ?_⟩
  intro a ha
  exact hpg.2.2 a ha p (by simp)

/-- Specification of the forward coalescing loop: given an accumulated
element v that starts at or before every member of an invariant suffix, the
loop returns an element with the same start, at least the same end, an
invariant total list, and unchanged total coverage. -/
theorem coalesceFrom_spec (v : Range) (suf : List Range)
    (hv : 0 < v.Size) (hinv : RangeSetInv suf)
    (hle : ∀ m ∈ suf, v.Pos ≤ m.Pos) :
    0 < (coalesceFrom v suf).1.Size ∧
    (coalesceFrom v suf).1.Pos = v.Pos ∧
    v.End ≤ (coalesceFrom v suf).1.End ∧
    RangeSetInv ((coalesceFrom v suf).1 :: (coalesceFrom v suf).2) ∧
    Finset.Ico (coalesceFrom v suf).1.Pos (coalesceFrom v suf).1.End ∪
        covered (coalesceFrom v suf).2
      = Finset.Ico v.Pos v.End ∪ covered suf := by
  induction suf generalizing v with
  | nil =>
    refine ⟨hv, rfl, le_refl _, ?_, rfl⟩
    show RangeSetInv [v]
    exact inv_cons.mpr ⟨hv, inv_nil, by simp⟩
  | cons d rest ih =>
    cases hm : merge v d with
    | none =>
      have hres : coalesceFrom v (d :: rest) = (v, d :: rest) := by
        simp [coalesceFrom, hm]
      rw [hres]
      have hvd : v.End < d.Pos := merge_eq_none_iff.mp hm
      refine ⟨hv, rfl, le_refl _, ?_, rfl⟩
      refine inv_cons.mpr ⟨hv, hinv, ?_⟩
      intro q hq
      rcases List.mem_cons.mp hq with rfl | hq
      · exact hvd
      · have h1 := inv_head_lt hinv q hq
        have h2 := hinv.1 d (by simp)
        simp only [Range.End] at *
        omega
    | some m =>
      have hres : coalesceFrom v (d :: rest) = coalesceFrom m rest := by
        simp [coalesceFrom, hm]
      rw [hres]
      have hpos : v.Pos ≤ d.Pos := hle d (by simp)
      have hms := merge_some_spec hm
      have hcov := merge_some_cov hm hpos
      have hdpos : 0 < d.Size := hinv.1 d (by simp)
      have hmsize : 0 < m.Size := by
        have h1 := hms.1
        have h2 := hms.2
        simp only [Range.End] at *
        omega
      have hmle : ∀ q ∈ rest, m.Pos ≤ q.Pos := by
        intro q hq
        have h1 := inv_head_lt hinv q hq
        have h2 := hms.1
        simp only [Range.End] at *
        omega
      have IH := ih m hmsize (inv_tail hinv) hmle
      refine ⟨IH.1, ?_, ?_, IH.2.2.2.1, ?_⟩
      · rw [IH.2.1, hms.1]
      · calc v.End ≤ m.End := by rw [hms.2]; exact le_max_left _ _
          _ ≤ (coalesceFrom m rest).1.End := IH.2.2.1
      · rw [IH.2.2.2.2, hcov, covered_cons]
        ext y
        simp only [Finset.mem_union]
        tauto

/-- Reduction of coalesce at the insertion point of a decomposed list. -/
theorem coalesce_append (pre suf : List Range) (x : Range) :
    Ranges.coalesce (pre ++ x :: suf) pre.length =
      match pre.getLast? with
      | some p =>
        match merge p x with
        | some m => pre.dropLast ++ (coalesceFrom m suf).1 :: (coalesceFrom m suf).2
        | none => pre ++ (coalesceFrom x suf).1 :: (coalesceFrom x suf).2
      | none => (coalesceFrom x suf).1 :: (coalesceFrom x suf).2 := by
  unfold Ranges.coalesce
  rw [List.drop_left, List.take_left]

/-- Main lemma on the insertion step: coalescing after placing element x
between a strictly-before prefix and an at-or-after suffix yields an
invariant set covering exactly the prefix, x and the suffix. -/
theorem coalesce_insert_spec (pre suf : List Range) (x : Range) (n : Nat)
    (hn : n = pre.length)
    (hpreInv : RangeSetInv pre) (hsufInv : RangeSetInv suf) (hx : 0 < x.Size)
    (hpreLt : ∀ p ∈ pre, p.Pos < x.Pos)
    (hsufGe : ∀ s ∈ suf, x.Pos ≤ s.Pos) :
    RangeSetInv (Ranges.coalesce (pre ++ x :: suf) n) ∧
    covered (Ranges.coalesce (pre ++ x :: suf) n)
      = covered pre ∪ Finset.Ico x.Pos x.End ∪ covered suf := by
  subst hn
  rw [coalesce_append]
  rcases List.eq_nil_or_concat pre with rfl | ⟨pre₀, p, rfl⟩
  · simp only [List.getLast?_nil]
    have H := coalesceFrom_spec x suf hx hsufInv hsufGe
    refine ⟨H.2.2.2.1, ?_⟩
    rw [covered_cons, H.2.2.2.2]
    simp [covered_nil]
  · simp only [List.concat_eq_append] at *
    obtain ⟨hpre₀, hp, hlt₀⟩ := inv_concat hpreInv
    have hppos : p.Pos < x.Pos := hpreLt p (by simp)
    rw [List.getLast?_concat]
    cases hm : merge p x with
    | none =>
      simp only [hm]
      have hpx : p.End < x.Pos := merge_eq_none_iff.mp hm
      have H := coalesceFrom_spec x suf hx hsufInv hsufGe
      have hlink : ∀ a ∈ pre₀ ++ [p],
          ∀ b ∈ (coalesceFrom x suf).1 :: (coalesceFrom x suf).2, a.End < b.Pos := by
        intro a ha b hb
        have hax : a.End < x.Pos := by
          rcases List.mem_append.mp ha with h | h
          · have := hlt₀ a h
            simp only [Range.End] at *
            omega
          · simp only [List.mem_singleton] at h
            subst h
            exact hpx
        have hxb : x.Pos ≤ b.Pos := by
          rcases List.mem_cons.mp hb with rfl | hb
          · rw [H.2.1]
          · have h1 := inv_head_lt H.2.2.2.1 b hb
            have h2 := H.1
            have h3 := H.2.1
            simp only [Range.End] at *
            omega
        omega
      refine ⟨inv_append hpreInv H.2.2.2.1 hlink, ?_⟩
      rw [covered_append, covered_cons, H.2.2.2.2]
      ext y
      simp only [Finset.mem_union]
      tauto
    | some m =>
      simp only [hm, List.dropLast_concat]
      have hms := merge_some_spec hm
      have hcovm := merge_some_cov hm (le_of_lt hppos)
      have hmsize : 0 < m.Size := by
        have h1 := hms.1
        have h2 := hms.2
        simp only [Range.End] at *
        omega
      have hmle : ∀ s ∈ suf, m.Pos ≤ s.Pos := by
        intro s hs
        have := hsufGe s hs
        rw [hms.1]
        omega
      have H := coalesceFrom_spec m suf hmsize hsufInv hmle
      have hlink : ∀ a ∈ pre₀,
          ∀ b ∈ (coalesceFrom m suf).1 :: (coalesceFrom m suf).2, a.End < b.Pos := by
        intro a ha b hb
        have hap : a.End < p.Pos := hlt₀ a ha
        have hpb : p.Pos ≤ b.Pos := by
          rcases List.mem_cons.mp hb with rfl | hb
          · rw [H.2.1, hms.1]
          · have h1 := inv_head_lt H.2.2.2.1 b hb
            have h2 := H.1
            have h3 := H.2.1
            have h4 := hms.1
            simp only [Range.End] at *
            omega
        omega
      refine ⟨inv_append hpre₀ H.2.2.2.1 hlink, ?_⟩
      rw [covered_append, covered_cons, H.2.2.2.2, hcovm, covered_append,
        covered_cons, covered_nil]
      ext y
      simp only [Finset.mem_union]
      tauto

/-- Decomposition of insertIdx into take and drop. -/
theorem insertIdx_decomp (l : List Range) (i : Nat) (x : Range)
    (h : i ≤ l.length) : l.insertIdx i x = l.take i ++ x :: l.drop i := by
  induction l generalizing i with
  | nil =>
    have : i = 0 := by simpa using h
    subst this
    rfl
  | cons a l ih =>
    cases i with
    | zero => rfl
    | succ n =>
      simp only [List.insertIdx_succ_cons, List.take_succ_cons, List.drop_succ_cons,
        List.cons_append, List.cons.injEq, true_and]
      exact ih n (by simpa using h)

/-- Specification of Ranges.Insert on an invariant range set: the result
satisfies the invariant and covers exactly the old bytes plus those of the
inserted range. -/
theorem Insert_spec (rs : Ranges) (r : Range) (hinv : RangeSetInv rs) :
    RangeSetInv (Ranges.Insert rs r) ∧
    covered (Ranges.Insert rs r) = covered rs ∪ Finset.Ico r.Pos r.End := by
  unfold Ranges.Insert
  by_cases hemp : r.IsEmpty
  · simp only [hemp, if_true]
    have hico : Finset.Ico r.Pos r.End = ∅ := by
      apply Finset.Ico_eq_empty
      have := Range.isEmpty_eq_true.mp hemp
      simp only [Range.End, not_lt]
      omega
    rw [hico]
    exact ⟨hinv, by simp⟩
  · have hr : 0 < r.Size := Range.isEmpty_eq_false.mp (by simpa using hemp)
    simp only [hemp, Bool.false_eq_true, if_false]
    by_cases hnil : rs.isEmpty
    · simp only [hnil, if_true]
      have : rs = [] := by simpa using hnil
      subst this
      refine ⟨inv_cons.mpr ⟨hr, inv_nil, by simp⟩, ?_⟩
      simp [covered_cons, covered_nil]
    · simp only [hnil, Bool.false_eq_true, if_false]
      obtain ⟨hle, hlt, hge⟩ := search_spec rs r hinv
      set i := rs.search r with hidef
      have hpw := List.pairwise_iff_getElem.mp (inv_pairwise_pos hinv)
      have hpreInv : RangeSetInv (rs.take i) :=
        ⟨fun m hm => hinv.1 m (List.mem_of_mem_take hm), hinv.2.take i⟩
      have hpreLt : ∀ p ∈ rs.take i, p.Pos < r.Pos := by
        intro p hp
        obtain ⟨j, hj, hjp⟩ := List.mem_iff_getElem.mp hp
        have hj2 : j < i := by
          simp only [List.length_take] at hj
          omega
        have hjlen : j < rs.length := by
          simp only [List.length_take] at hj
          omega
        have hh := hlt j hj2
        rw [List.getD_eq_getElem _ _ hjlen] at hh
        rw [← hjp, List.getElem_take]
        exact hh
      by_cases hil : i = rs.length
      · simp only [hil, if_true]
        have H := coalesce_insert_spec rs [] r rs.length rfl hinv inv_nil hr
          ?_ (by simp)
        case _ =>
          refine ⟨H.1, ?_⟩
          rw [H.2]
          simp [covered_nil]
        case _ =>
          intro p hp
          obtain ⟨j, hj, hjp⟩ := List.mem_iff_getElem.mp hp
          have hh := hlt j (by omega)
          rw [List.getD_eq_getElem _ _ hj] at hh
          rw [← hjp]
          exact hh
      · have hilt : i < rs.length := lt_of_le_of_ne hle hil
        have hgei : r.Pos ≤ rs[i].Pos := by
          have := hge hilt
          rwa [List.getD_eq_getElem _ _ hilt] at this
        have hdropInv : RangeSetInv (rs.drop (i + 1)) :=
          ⟨fun m hm => hinv.1 m (List.mem_of_mem_drop hm), hinv.2.drop (i + 1)⟩
        have hdropGe : ∀ s ∈ rs.drop (i + 1), rs[i].Pos < s.Pos := by
          intro s hs
          obtain ⟨j, hj, hjs⟩ := List.mem_iff_getElem.mp hs
          have hjlen : i + 1 + j < rs.length := by
            simp only [List.length_drop] at hj
            omega
          have := hpw i (i + 1 + j) hilt hjlen (by omega)
          rw [List.getElem_drop] at hjs
          rw [← hjs]
          exact this
        simp only [hil, if_false]
        cases hm : merge r (rs.getD i ⟨0, 0⟩) with
        | none =>
          simp only [hm]
          rw [insertIdx_decomp rs i r hle]
          have hdropInv0 : RangeSetInv (rs.drop i) :=
            ⟨fun m hm2 => hinv.1 m (List.mem_of_mem_drop hm2), hinv.2.drop i⟩
          have hdropGe0 : ∀ s ∈ rs.drop i, r.Pos ≤ s.Pos := by
            intro s hs
            obtain ⟨j, hj, hjs⟩ := List.mem_iff_getElem.mp hs
            have hjlen : i + j < rs.length := by
              simp only [List.length_drop] at hj
              omega
            rw [List.getElem_drop] at hjs
            rcases Nat.eq_zero_or_pos j with rfl | hjpos
            · rw [← hjs]
              simpa using hgei
            · have := hpw i (i + j) hilt hjlen (by omega)
              rw [← hjs]
              omega
          have H := coalesce_insert_spec (rs.take i) (rs.drop i) r i
            (by simp [List.length_take]; omega) hpreInv hdropInv0 hr hpreLt hdropGe0
          refine ⟨H.1, ?_⟩
          rw [H.2]
          have : covered (rs.take i) ∪ covered (rs.drop i) = covered rs := by
            rw [← covered_append, List.take_append_drop]
          rw [← this]
          ext y
          simp only [Finset.mem_union]
          tauto
        | some m =>
          simp only [hm]
          rw [List.getD_eq_getElem _ _ hilt] at hm
          have hms := merge_some_spec hm
          have hcovm := merge_some_cov hm hgei
          have hszi : 0 < rs[i].Size := hinv.1 _ (List.getElem_mem hilt)
          have hmsize : 0 < m.Size := by
            have h1 := hms.1
            have h2 := hms.2
            simp only [Range.End] at *
            omega
          have hmGe : ∀ s ∈ rs.drop (i + 1), m.Pos ≤ s.Pos := by
            intro s hs
            have := hdropGe s hs
            rw [hms.1]
            omega
          have hmLt : ∀ p ∈ rs.take i, p.Pos < m.Pos := by
            intro p hp
            rw [hms.1]
            exact hpreLt p hp
          rw [List.set_eq_take_cons_drop _ hilt]
          have H := coalesce_insert_spec (rs.take i) (rs.drop (i + 1)) m i
            (by simp [List.length_take]; omega) hpreInv hdropInv hmsize hmLt hmGe
          refine ⟨H.1, ?_⟩
          rw [H.2, hcovm]
          have hrs : covered rs = covered (rs.take i) ∪
              (Finset.Ico rs[i].Pos rs[i].End ∪ covered (rs.drop (i + 1))) := by
            conv_lhs => rw [← List.take_append_drop i rs]
            rw [covered_append]
            congr 1
            rw [← List.get_drop_eq_drop rs i hilt, covered_cons]
          rw [hrs]
          ext y
          simp only [Finset.mem_union]
          tauto

/-- Inserting into any invariant range set preserves the invariant. -/
theorem insert_preserves_inv {rs : Ranges} (r : Range) (h : RangeSetInv rs) :
    RangeSetInv (Ranges.Insert rs r) := (Insert_spec rs r h).1

/-- An invariant range set is determined by its coverage. -/
theorem covered_eq_canonical : ∀ {rs bs : Ranges}, RangeSetInv rs →
    RangeSetInv bs → covered rs = covered bs → rs = bs := by
  intro rs
  induction rs with
  | nil =>
    intro bs _ hbinv hcov
    cases bs with
    | nil => rfl
    | cons b bs₀ =>
      exfalso
      have hb : 0 < b.Size := hbinv.1 b (by simp)
      have : b.Pos ∈ covered (b :: bs₀) := by
        refine mem_covered.mpr ⟨b, by simp, le_refl _, ?_⟩
        simp only [Range.End]
        omega
      rw [← hcov] at this
      simp [covered_nil] at this
  | cons a as ih =>
    intro bs hainv hbinv hcov
    cases bs with
    | nil =>
      exfalso
      have ha : 0 < a.Size := hainv.1 a (by simp)
      have : a.Pos ∈ covered (a :: as) := by
        refine mem_covered.mpr ⟨a, by simp, le_refl _, ?_⟩
        simp only [Range.End]
        omega
      rw [hcov] at this
      simp [covered_nil] at this
    | cons b bs₀ =>
      have ha : 0 < a.Size := hainv.1 a (by simp)
      have hb : 0 < b.Size := hbinv.1 b (by simp)
      have haPos : a.Pos ∈ covered (a :: as) := by
        refine mem_covered.mpr ⟨a, by simp, le_refl _, ?_⟩
        simp only [Range.End]
        omega
      have hbPos : b.Pos ∈ covered (b :: bs₀) := by
        refine mem_covered.mpr ⟨b, by simp, le_refl _, ?_⟩
        simp only [Range.End]
        omega
      have hposab : a.Pos = b.Pos := by
        have h1 : a.Pos ≤ b.Pos := covered_pos_le hainv (hcov ▸ hbPos)
        have h2 : b.Pos ≤ a.Pos := covered_pos_le hbinv (hcov.symm ▸ haPos)
        omega
      have haEnd : a.End ∉ covered (a :: as) := end_not_covered hainv (by simp)
      have hbEnd : b.End ∉ covered (b :: bs₀) := end_not_covered hbinv (by simp)
      have hendab : a.End = b.End := by
        by_contra hne
        rcases lt_or_gt_of_ne hne with hc | hc
        · apply haEnd
          rw [hcov]
          refine mem_covered.mpr ⟨b, by simp, ?_, hc⟩
          simp only [Range.End] at *
          omega
        · apply hbEnd
          rw [← hcov]
          refine mem_covered.mpr ⟨a, by simp, ?_, hc⟩
          simp only [Range.End] at *
          omega
      have hab : a = b := by
        cases a
        cases b
        simp only [Range.End, Range.mk.injEq] at *
        omega
      subst hab
      have htails : covered as = covered bs₀ := by
        ext y
        constructor
        · intro hy
          rcases mem_covered.mp hy with ⟨m, hm, h1, h2⟩
          have hya : a.End < y + 1 := by
            have := inv_head_lt hainv m hm
            simp only [Range.End] at *
            omega
          have : y ∈ covered (a :: bs₀) := by
            rw [← hcov, covered_cons]
            exact Finset.mem_union_right _ hy
          rw [covered_cons] at this
          rcases Finset.mem_union.mp this with hc | hc
          · exfalso
            rcases Finset.mem_Ico.mp hc with ⟨_hge, hlt2⟩
            omega
          · exact hc
        · intro hy
          rcases mem_covered.mp hy with ⟨m, hm, h1, h2⟩
          have hya : a.End < y + 1 := by
            have := inv_head_lt hbinv m hm
            simp only [Range.End] at *
            omega
          have : y ∈ covered (a :: as) := by
            rw [hcov, covered_cons]
            exact Finset.mem_union_right _ hy
          rw [covered_cons] at this
          rcases Finset.mem_union.mp this with hc | hc
          · exfalso
            rcases Finset.mem_Ico.mp hc with ⟨_hge, hlt2⟩
            omega
          · exact hc
      rw [ih (inv_tail hainv) (inv_tail hbinv) htails]

/-- Extensionality for Range. -/
theorem Range.ext_fields {a b : Range} (h1 : a.Pos = b.Pos) (h2 : a.Size = b.Size) :
    a = b := by
  cases a
  cases b
  simp only [Range.mk.injEq]
  exact ⟨h1, h2⟩

/-- Emptiness of a range intersection is plain interval arithmetic. -/
theorem inter_empty_char {a b : Range} :
    (a.Intersection b).IsEmpty = true ↔
      b.End ≤ a.Pos ∨ a.End ≤ b.Pos ∨ a.Size ≤ 0 ∨ b.Size ≤ 0 := by
  unfold Range.Intersection
  split
  · rename_i hcond
    simp only [Range.IsEmpty, decide_eq_true_eq, Range.End] at *
    rcases le_total a.Pos b.Pos with h1 | h1 <;> rcases le_total a.End b.End with h2 | h2 <;>
      simp only [Range.End] at h1 h2
    · rw [max_eq_right h1, min_eq_left h2]
      omega
    · rw [max_eq_right h1, min_eq_right h2]
      omega
    · rw [max_eq_left h1, min_eq_left h2]
      omega
    · rw [max_eq_left h1, min_eq_right h2]
      omega
  · rename_i hcond
    simp only [Range.IsEmpty, decide_eq_true_eq, Range.End, not_or, not_and, not_lt,
      ge_iff_le] at *
    constructor
    · intro _
      rcases le_total a.Pos b.Pos with hc | hc
      · have := hcond.2 hc
        omega
      · have := hcond.1 hc
        omega
    · intro _
      omega

/-- Field bounds of a non-empty intersection, in linear form. -/
theorem inter_nonempty_fields {a b : Range}
    (h : (a.Intersection b).IsEmpty = false) :
    a.Pos ≤ (a.Intersection b).Pos ∧ b.Pos ≤ (a.Intersection b).Pos ∧
    ((a.Intersection b).Pos = a.Pos ∨ (a.Intersection b).Pos = b.Pos) ∧
    (a.Intersection b).End ≤ a.End ∧ (a.Intersection b).End ≤ b.End ∧
    ((a.Intersection b).End = a.End ∨ (a.Intersection b).End = b.End) ∧
    (a.Intersection b).Pos < (a.Intersection b).End := by
  have hC : (a.Pos ≥ b.Pos ∧ a.Pos < b.End) ∨ (b.Pos ≥ a.Pos ∧ b.Pos < a.End) := by
    by_contra hc
    unfold Range.Intersection at h
    rw [if_neg hc] at h
    simp [Range.IsEmpty] at h
  have ht : a.Intersection b =
      ⟨max a.Pos b.Pos, min a.End b.End - max a.Pos b.Pos⟩ := by
    unfold Range.Intersection
    rw [if_pos hC]
  rw [ht] at h ⊢
  simp only [Range.IsEmpty, decide_eq_false_iff_not, not_le] at h
  simp only [Range.End] at *
  rcases le_total a.Pos b.Pos with h1 | h1 <;> rcases le_total a.End b.End with h2 | h2 <;>
    simp only [Range.End] at h1 h2
  · rw [max_eq_right h1, min_eq_left h2] at h ⊢
    omega
  · rw [max_eq_right h1, min_eq_right h2] at h ⊢
    omega
  · rw [max_eq_left h1, min_eq_left h2] at h ⊢
    omega
  · rw [max_eq_left h1, min_eq_right h2] at h ⊢
    omega

/-- Intersecting with an empty second range always yields an empty range. -/
theorem inter_with_empty {a b : Range} (h : b.Size ≤ 0) :
    (a.Intersection b).IsEmpty = true := by
  rw [inter_empty_char]
  omega

/-- Statement, in the vocabulary of the spec, of what an output triple
(curr, next, present) of Find must be for input range r over set rs: curr
starts at r.Pos; present is true exactly when some member of the set
contains r.Pos (with r non-empty), in which case curr is the intersection
of r with that member; otherwise curr is the gap from r.Pos to the next
member or to the end of r and meets no member; and next is the remainder of
r beyond curr, empty exactly when r is exhausted. -/
def FindOutSpec (rs : Ranges) (r : Range) (out : Range × Range × Bool) : Prop :=
  out.1.Pos = r.Pos ∧
  (out.2.2 = true ↔ ∃ m ∈ rs, m.Pos ≤ r.Pos ∧ r.Pos < m.End ∧ r.Pos < r.End) ∧
  (out.2.2 = true → ∃ m ∈ rs, m.Pos ≤ r.Pos ∧ r.Pos < m.End ∧
      out.1 = m.Intersection r) ∧
  (out.2.2 = false → (∀ m ∈ rs, (m.Intersection out.1).IsEmpty = true) ∧
      (out.1.End = r.End ∨ ∃ m ∈ rs, m.Pos = out.1.End)) ∧
  out.1.End ≤ r.End ∧
  (out.2.1.IsEmpty = false →
    out.2.1 = ⟨out.1.End, r.End - out.1.End⟩ ∧ r.Pos ≤ out.1.End) ∧
  (out.2.1.IsEmpty = true ↔ r.End ≤ out.1.End)

/-- FindSpec instantiated at what Find actually returns. -/
def FindSpec (rs : Ranges) (r : Range) : Prop :=
  FindOutSpec rs r (Ranges.Find rs r)

/-- Members strictly before the search index end at or before r.Pos,
provided the member just before the index does not intersect r. -/
theorem before_search_end_le (rs : Ranges) (r : Range) (hinv : RangeSetInv rs)
    (hr : 0 < r.Size)
    (hprev : rs.search r > 0 →
      ((rs.getD (rs.search r - 1) ⟨0, 0⟩).Intersection r).IsEmpty = true) :
    ∀ k, k < rs.search r → (hk : k < rs.length) → rs[k].End ≤ r.Pos := by
  obtain ⟨hle, hlt, _hge⟩ := search_spec rs r hinv
  set i := rs.search r with hidef
  intro k hk hklen
  have hi0 : i > 0 := by omega
  have hi1len : i - 1 < rs.length := by omega
  have hprevE := hprev hi0
  rw [List.getD_eq_getElem _ _ hi1len] at hprevE
  rw [inter_empty_char] at hprevE
  have hprevPos : rs[i - 1].Pos < r.Pos := by
    have := hlt (i - 1) (by omega)
    rwa [List.getD_eq_getElem _ _ hi1len] at this
  have hprevSz : 0 < rs[i - 1].Size := hinv.1 _ (List.getElem_mem hi1len)
  have hprevEnd : rs[i - 1].End ≤ r.Pos := by
    simp only [Range.End] at *
    omega
  rcases Nat.lt_or_ge k (i - 1) with hc | hc
  · have hpw := List.pairwise_iff_getElem.mp (inv_pairwise_gap hinv)
    have := hpw k (i - 1) hklen hi1len hc
    simp only [Range.End] at *
    omega
  · have : k = i - 1 := by omega
    subst this
    exact hprevEnd

/-- Proof helper: the tail of Find evaluated once the previous-member check
has not produced a hit (mirrors the code after the fromPrev match). -/
def findRest (rs : Ranges) (r : Range) (i : Nat) : Range × Range × Bool :=
  if i ≥ rs.length then (r, ⟨0, 0⟩, false)
  else
    let found := rs.getD i ⟨0, 0⟩
    let intersection := found.Intersection r
    if intersection.IsEmpty then (r, ⟨0, 0⟩, false)
    else if r.Pos < intersection.Pos then
      let curr : Range := ⟨r.Pos, intersection.Pos - r.Pos⟩
      (curr, ⟨curr.End, r.Size - curr.Size⟩, false)
    else (intersection, ⟨intersection.End, r.Size - intersection.Size⟩, true)

/-- Find reduces to the previous-member intersection when that hits. -/
theorem find_eq_prevhit {rs : Ranges} {r : Range} (hemp : r.IsEmpty = false)
    (hi0 : rs.search r > 0)
    (hpe : ((rs.getD (rs.search r - 1) ⟨0, 0⟩).Intersection r).IsEmpty = false) :
    Ranges.Find rs r =
      ((rs.getD (rs.search r - 1) ⟨0, 0⟩).Intersection r,
        ⟨((rs.getD (rs.search r - 1) ⟨0, 0⟩).Intersection r).End,
          r.Size - ((rs.getD (rs.search r - 1) ⟨0, 0⟩).Intersection r).Size⟩,
        true) := by
  unfold Ranges.Find
  simp only [List.getD_eq_getElem?_getD] at hpe
  simp [hemp, hi0, hpe, List.getD_eq_getElem?_getD]

/-- Find reduces to its tail when the previous-member check does not hit. -/
theorem find_eq_rest {rs : Ranges} {r : Range} (hemp : r.IsEmpty = false)
    (hnp : rs.search r = 0 ∨
      ((rs.getD (rs.search r - 1) ⟨0, 0⟩).Intersection r).IsEmpty = true) :
    Ranges.Find rs r = findRest rs r (rs.search r) := by
  unfold Ranges.Find findRest
  rcases hnp with h | h
  · simp [hemp, h]
  · simp only [List.getD_eq_getElem?_getD] at h
    rcases Nat.eq_zero_or_pos (rs.search r) with h0 | h0
    · simp [hemp, h0]
    · simp [hemp, h0, h, List.getD_eq_getElem?_getD]

/-- Specification of the tail of Find: holds whenever every member before
the search index ends at or before r.Pos. -/
theorem findRest_spec (rs : Ranges) (r : Range) (hinv : RangeSetInv rs)
    (hr : 0 < r.Size)
    (hBefore : ∀ k, k < rs.search r → k < rs.length →
      (rs.getD k ⟨0, 0⟩).End ≤ r.Pos) :
    FindOutSpec rs r (findRest rs r (rs.search r)) := by
  obtain ⟨hle, hlt, hge⟩ := search_spec rs r hinv
  set i := rs.search r with hidef
  have hgetD : ∀ (k : Nat) (hk : k < rs.length), rs.getD k ⟨0, 0⟩ = rs[k] :=
    fun k hk => List.getD_eq_getElem _ _ hk
  have hpw : ∀ a b, a < b → b < rs.length →
      (rs.getD a ⟨0, 0⟩).End < (rs.getD b ⟨0, 0⟩).Pos := by
    intro a b hab hb
    rw [hgetD a (by omega), hgetD b hb]
    exact List.pairwise_iff_getElem.mp (inv_pairwise_gap hinv) a b (by omega) hb hab
  have hmemIdx : ∀ m ∈ rs, ∃ k, k < rs.length ∧ m = rs.getD k ⟨0, 0⟩ := by
    intro m hm
    obtain ⟨k, hk, hkm⟩ := List.mem_iff_getElem.mp hm
    exact ⟨k, hk, by rw [hgetD k hk, hkm]⟩
  have hszD : ∀ (k : Nat), k < rs.length → 0 < (rs.getD k ⟨0, 0⟩).Size := by
    intro k hk
    rw [hgetD k hk]
    exact hinv.1 _ (List.getElem_mem hk)
  unfold findRest FindOutSpec
  by_cases hilen : i ≥ rs.length
  · rw [if_pos hilen]
    refine ⟨rfl, ?_, ?_, ?_, le_refl _, ?_, ?_⟩
    · constructor
      · intro h
        exact absurd h (by simp)
      · rintro ⟨m, hm, h1, h2, _h3⟩
        obtain ⟨k, hk, rfl⟩ := hmemIdx m hm
        have := hBefore k (by omega) hk
        simp only [Range.End] at *
        omega
    · intro h
      exact absurd h (by simp)
    · intro _
      refine ⟨?_, Or.inl rfl⟩
      intro m hm
      obtain ⟨k, hk, rfl⟩ := hmemIdx m hm
      have := hBefore k (by omega) hk
      rw [inter_empty_char]
      simp only [Range.End] at *
      omega
    · intro h
      simp [Range.IsEmpty] at h
    · simp [Range.IsEmpty]
  · have hflen : i < rs.length := by omega
    rw [if_neg hilen]
    set found := rs.getD i ⟨0, 0⟩ with hfounddef
    have hfoundMem : found ∈ rs := by
      rw [hfounddef, hgetD i hflen]
      exact List.getElem_mem hflen
    have hfoundSz : 0 < found.Size := hszD i hflen
    have hfoundPos : r.Pos ≤ found.Pos := hge hflen
    by_cases hfe : (found.Intersection r).IsEmpty
    · rw [if_pos hfe]
      have hchar := inter_empty_char.mp hfe
      have hrEnd : r.End ≤ found.Pos := by
        simp only [Range.End] at *
        omega
      refine ⟨rfl, ?_, ?_, ?_, le_refl _, ?_, ?_⟩
      · constructor
        · intro h
          exact absurd h (by simp)
        · rintro ⟨m, hm, h1, h2, _h3⟩
          obtain ⟨k, hk, rfl⟩ := hmemIdx m hm
          rcases lt_trichotomy k i with hc | hceq | hc
          · have := hBefore k hc hk
            simp only [Range.End] at *
            omega
          · subst hceq
            rw [← hfounddef] at h1 h2
            simp only [Range.End] at *
            omega
          · have := hpw i k hc hk
            rw [← hfounddef] at this
            simp only [Range.End] at *
            omega
      · intro h
        exact absurd h (by simp)
      · intro _
        refine ⟨?_, Or.inl rfl⟩
        intro m hm
        obtain ⟨k, hk, rfl⟩ := hmemIdx m hm
        rw [inter_empty_char]
        rcases lt_trichotomy k i with hc | hceq | hc
        · have := hBefore k hc hk
          simp only [Range.End] at *
          omega
        · subst hceq
          rw [← hfounddef]
          exact Or.inl hrEnd
        · have := hpw i k hc hk
          rw [← hfounddef] at this
          simp only [Range.End] at *
          omega
      · intro h
        simp [Range.IsEmpty] at h
      · simp [Range.IsEmpty]
    · have hfe2 : (found.Intersection r).IsEmpty = false := by
        simpa using hfe
      rw [if_neg (by simp [hfe2])]
      obtain ⟨hf1, hf2, hf3, hf4, hf5, hf6, hf7⟩ := inter_nonempty_fields hfe2
      by_cases hlt2 : r.Pos < (found.Intersection r).Pos
      · rw [if_pos hlt2]
        have hIPf : (found.Intersection r).Pos = found.Pos := by
          rcases hf3 with h | h
          · exact h
          · omega
        refine ⟨rfl, ?_, ?_, ?_, ?_, ?_, ?_⟩
        · constructor
          · intro h
            exact absurd h (by simp)
          · rintro ⟨m, hm, h1, h2, _h3⟩
            obtain ⟨k, hk, rfl⟩ := hmemIdx m hm
            rcases lt_trichotomy k i with hc | hceq | hc
            · have := hBefore k hc hk
              simp only [Range.End] at *
              omega
            · subst hceq
              rw [← hfounddef] at h1 h2
              simp only [Range.End] at *
              omega
            · have := hpw i k hc hk
              rw [← hfounddef] at this
              simp only [Range.End] at *
              omega
        · intro h
          exact absurd h (by simp)
        · intro _
          constructor
          · intro m hm
            obtain ⟨k, hk, rfl⟩ := hmemIdx m hm
            rw [inter_empty_char]
            rcases lt_trichotomy k i with hc | hceq | hc
            · have := hBefore k hc hk
              simp only [Range.End] at *
              omega
            · subst hceq
              rw [← hfounddef]
              simp only [Range.End] at *
              omega
            · have := hpw i k hc hk
              rw [← hfounddef] at this
              simp only [Range.End] at *
              omega
          · refine Or.inr ⟨found, hfoundMem, ?_⟩
            simp only [Range.End] at *
            omega
        · simp only [Range.End] at *
          omega
        · intro _
          constructor
          · refine Range.ext_fields rfl ?_
            simp only [Range.End] at *
            omega
          · simp only [Range.End] at *
            omega
        · simp only [Range.IsEmpty, decide_eq_true_eq, Range.End] at *
          omega
      · rw [if_neg hlt2]
        have hIPr : (found.Intersection r).Pos = r.Pos := by omega
        refine ⟨hIPr, ?_, ?_, ?_, hf5, ?_, ?_⟩
        · constructor
          · intro _
            refine ⟨found, hfoundMem, ?_, ?_, ?_⟩
            · omega
            · simp only [Range.End] at *
              omega
            · simp only [Range.End] at *
              omega
          · intro _
            rfl
        · intro _
          refine ⟨found, hfoundMem, ?_, ?_, rfl⟩
          · omega
          · simp only [Range.End] at *
            omega
        · intro h
          exact absurd h (by simp)
        · intro _
          constructor
          · refine Range.ext_fields rfl ?_
            simp only [Range.End] at *
            omega
          · simp only [Range.End] at *
            omega
        · simp only [Range.IsEmpty, decide_eq_true_eq, Range.End] at *
          omega

/-- Specification of the previous-member hit branch of Find. -/
theorem findPrev_spec (rs : Ranges) (r : Range) (hinv : RangeSetInv rs)
    (hr : 0 < r.Size) (hi0 : rs.search r > 0)
    (hpe : ((rs.getD (rs.search r - 1) ⟨0, 0⟩).Intersection r).IsEmpty = false) :
    FindOutSpec rs r
      ((rs.getD (rs.search r - 1) ⟨0, 0⟩).Intersection r,
        ⟨((rs.getD (rs.search r - 1) ⟨0, 0⟩).Intersection r).End,
          r.Size - ((rs.getD (rs.search r - 1) ⟨0, 0⟩).Intersection r).Size⟩,
        true) := by
  obtain ⟨hle, hlt, _hge⟩ := search_spec rs r hinv
  set i := rs.search r with hidef
  have hi1len : i - 1 < rs.length := by omega
  set prev := rs.getD (i - 1) ⟨0, 0⟩ with hprevdef
  have hprevMem : prev ∈ rs := by
    rw [hprevdef, List.getD_eq_getElem _ _ hi1len]
    exact List.getElem_mem hi1len
  have hprevPos : prev.Pos < r.Pos := hlt (i - 1) (by omega)
  obtain ⟨hf1, hf2, hf3, hf4, hf5, hf6, hf7⟩ := inter_nonempty_fields hpe
  have hIPr : (prev.Intersection r).Pos = r.Pos := by
    rcases hf3 with h | h
    · omega
    · exact h
  unfold FindOutSpec
  refine ⟨hIPr, ?_, ?_, ?_, hf5, ?_, ?_⟩
  · constructor
    · intro _
      refine ⟨prev, hprevMem, by omega, ?_, ?_⟩
      · simp only [Range.End] at *
        omega
      · simp only [Range.End] at *
        omega
    · intro _
      rfl
  · intro _
    refine ⟨prev, hprevMem, by omega, ?_, rfl⟩
    simp only [Range.End] at *
    omega
  · intro h
    exact absurd h (by simp)
  · intro _
    constructor
    · refine Range.ext_fields rfl ?_
      simp only [Range.End] at *
      omega
    · simp only [Range.End] at *
      omega
  · simp only [Range.IsEmpty, decide_eq_true_eq, Range.End] at *
    omega

/-- Full specification of Find on an invariant range set. -/
theorem find_spec_all (rs : Ranges) (r : Range) (hinv : RangeSetInv rs) :
    FindSpec rs r := by
  unfold FindSpec
  by_cases hempty : r.IsEmpty
  · have hres : Ranges.Find rs r = (r, ⟨0, 0⟩, false) := by
      unfold Ranges.Find
      simp [hempty]
    rw [hres]
    have hsz : r.Size ≤ 0 := Range.isEmpty_eq_true.mp hempty
    unfold FindOutSpec
    refine ⟨rfl, ?_, ?_, ?_, le_refl _, ?_, ?_⟩
    · constructor
      · intro h
        exact absurd h (by simp)
      · rintro ⟨m, _hm, _h1, _h2, h3⟩
        simp only [Range.End] at h3
        omega
    · intro h
      exact absurd h (by simp)
    · intro _
      exact ⟨fun m _hm => inter_with_empty hsz, Or.inl rfl⟩
    · intro h
      simp [Range.IsEmpty] at h
    · simp [Range.IsEmpty]
  · have hemp : r.IsEmpty = false := by simpa using hempty
    have hr : 0 < r.Size := Range.isEmpty_eq_false.mp hemp
    by_cases hi0 : rs.search r > 0
    · by_cases hpe : ((rs.getD (rs.search r - 1) ⟨0, 0⟩).Intersection r).IsEmpty
      · rw [find_eq_rest hemp (Or.inr hpe)]
        refine findRest_spec rs r hinv hr ?_
        have hB := before_search_end_le rs r hinv hr (fun _ => hpe)
        intro k hk1 hk2
        rw [List.getD_eq_getElem _ _ hk2]
        exact hB k hk1 hk2
      · have hpe2 : ((rs.getD (rs.search r - 1) ⟨0, 0⟩).Intersection r).IsEmpty = false := by
          simpa using hpe
        rw [find_eq_prevhit hemp hi0 hpe2]
        exact findPrev_spec rs r hinv hr hi0 hpe2
    · have h0 : rs.search r = 0 := by omega
      rw [find_eq_rest hemp (Or.inl h0)]
      refine findRest_spec rs r hinv hr ?_
      intro k hk1 _hk2
      rw [h0] at hk1
      exact absurd hk1 (by omega)

/-- Arithmetic helper for fuel accounting with Int.toNat. -/
theorem toNat_lt_helper {a b : Int} {f : Nat} (h1 : a < b) (h2 : 0 < b)
    (h3 : b.toNat < f + 1) : a.toNat < f := by
  omega

/-- Arithmetic helper: splitting an interval at the current chunk when the
remainder is empty. -/
theorem interval_split_empty {rP rS cP cS nP nS y : Int}
    (h1 : cP = rP) (h5 : cP + cS ≤ rP + rS) (h7 : rP + rS ≤ cP + cS)
    (hnn : nS ≤ 0) :
    (rP ≤ y ∧ y < rP + rS) ↔
      ((cP ≤ y ∧ y < cP + cS) ∨ (nP ≤ y ∧ y < nP + nS)) := by
  omega

/-- Arithmetic helper: splitting an interval at the current chunk when the
remainder covers the rest. -/
theorem interval_split_rest {rP rS cP cS y : Int}
    (h1 : cP = rP) (h5 : cP + cS ≤ rP + rS) (h8 : rP ≤ cP + cS) :
    (rP ≤ y ∧ y < rP + rS) ↔
      ((cP ≤ y ∧ y < cP + cS) ∨ (cP + cS ≤ y ∧ y < cP + cS + (rP + rS - (cP + cS)))) := by
  omega

/-- When Find reports present, the bytes of curr are covered by the set. -/
theorem find_curr_subset (rs : Ranges) (r : Range) (hinv : RangeSetInv rs)
    (h : (Ranges.Find rs r).2.2 = true) {y : Int}
    (hy : (Ranges.Find rs r).1.Pos ≤ y) (hy2 : y < (Ranges.Find rs r).1.End) :
    y ∈ covered rs := by
  have hspec := find_spec_all rs r hinv
  unfold FindSpec FindOutSpec at hspec
  obtain ⟨m, hm, k1, k2, k3⟩ := hspec.2.2.1 h
  obtain ⟨m2, hm2, p1, p2, hrE⟩ := hspec.2.1.mp h
  have hne : (m.Intersection r).IsEmpty = false := by
    cases hc : (m.Intersection r).IsEmpty with
    | false => rfl
    | true =>
      rw [inter_empty_char] at hc
      simp only [Range.End] at *
      omega
  obtain ⟨hf1, hf2, hf3, hf4, hf5, hf6, hf7⟩ := inter_nonempty_fields hne
  rw [k3] at hy hy2
  refine mem_covered.mpr ⟨m, hm, by omega, ?_⟩
  simp only [Range.End] at *
  omega

/-- When Find reports absent, no byte of curr is covered by the set. -/
theorem find_curr_not_covered (rs : Ranges) (r : Range) (hinv : RangeSetInv rs)
    (h : (Ranges.Find rs r).2.2 = false) {y : Int}
    (hy : (Ranges.Find rs r).1.Pos ≤ y) (hy2 : y < (Ranges.Find rs r).1.End) :
    y ∉ covered rs := by
  intro hyc
  have hspec := find_spec_all rs r hinv
  unfold FindSpec FindOutSpec at hspec
  obtain ⟨m, hm, k1, k2⟩ := mem_covered.mp hyc
  have hall := (hspec.2.2.2.1 h).1 m hm
  rw [inter_empty_char] at hall
  simp only [Range.End] at *
  omega

/-- Invariant and coverage of the Intersection loop: with fuel exceeding
the size of r, the loop accumulates exactly the covered bytes of r. -/
theorem intersectionLoop_spec (rs : Ranges) (hinv : RangeSetInv rs) :
    ∀ (fuel : Nat) (r : Range) (acc : Ranges), r.Size.toNat < fuel →
    RangeSetInv acc →
    RangeSetInv (Ranges.IntersectionLoop rs fuel r acc) ∧
    covered (Ranges.IntersectionLoop rs fuel r acc)
      = covered acc ∪ (covered rs ∩ Finset.Ico r.Pos r.End) := by
  intro fuel
  induction fuel with
  | zero =>
    intro r acc hf _hacc
    exact absurd hf (by omega)
  | succ fuel ih =>
    intro r acc hfuel hacc
    simp only [Ranges.IntersectionLoop]
    by_cases hemp : r.IsEmpty
    · rw [if_pos hemp]
      have hico : Finset.Ico r.Pos r.End = ∅ := by
        apply Finset.Ico_eq_empty
        have := Range.isEmpty_eq_true.mp hemp
        simp only [Range.End, not_lt]
        omega
      rw [hico]
      exact ⟨hacc, by simp⟩
    · rw [if_neg hemp]
      have hemp' : r.IsEmpty = false := by simpa using hemp
      have hr : 0 < r.Size := Range.isEmpty_eq_false.mp hemp'
      have hspec := find_spec_all rs r hinv
      unfold FindSpec FindOutSpec at hspec
      obtain ⟨h1, h2, h3, h4, h5, h6, h7⟩ := hspec
      have hnextlt := Ranges.find_next_size_lt rs r hemp'
      have hfuel2 : (Ranges.Find rs r).2.1.Size.toNat < fuel :=
        toNat_lt_helper hnextlt hr hfuel
      have hE_iff : ∀ y : Int, (r.Pos ≤ y ∧ y < r.End) ↔
          (((Ranges.Find rs r).1.Pos ≤ y ∧ y < (Ranges.Find rs r).1.End) ∨
           ((Ranges.Find rs r).2.1.Pos ≤ y ∧ y < (Ranges.Find rs r).2.1.End)) := by
        intro y
        by_cases hne : (Ranges.Find rs r).2.1.IsEmpty
        · have h7' := h7.mp hne
          have hnn : (Ranges.Find rs r).2.1.Size ≤ 0 := Range.isEmpty_eq_true.mp hne
          have h1' := h1
          have h5' := h5
          simp only [Range.End] at h7' h5' ⊢
          exact interval_split_empty h1' h5' h7' hnn
        · have h6' := h6 (by simpa using hne)
          rw [h6'.1]
          have h1' := h1
          have h5' := h5
          have h8' := h6'.2
          simp only [Range.End] at h5' h8' ⊢
          exact interval_split_rest h1' h5' h8'
      by_cases hout : (Ranges.Find rs r).2.2 = true
      · rw [if_pos hout]
        have haccI : RangeSetInv (Ranges.Insert acc (Ranges.Find rs r).1) :=
          (Insert_spec acc _ hacc).1
        have IH := ih (Ranges.Find rs r).2.1 _ hfuel2 haccI
        refine ⟨IH.1, ?_⟩
        rw [IH.2, (Insert_spec acc _ hacc).2]
        ext y
        have hB_C : ((Ranges.Find rs r).1.Pos ≤ y ∧ y < (Ranges.Find rs r).1.End) →
            y ∈ covered rs := fun hy => find_curr_subset rs r hinv hout hy.1 hy.2
        have hE := hE_iff y
        simp only [Finset.mem_union, Finset.mem_inter, Finset.mem_Ico]
        constructor
        · rintro ((hA | hB) | ⟨hC, hD⟩)
          · exact Or.inl hA
          · exact Or.inr ⟨hB_C hB, hE.mpr (Or.inl hB)⟩
          · exact Or.inr ⟨hC, hE.mpr (Or.inr hD)⟩
        · rintro (hA | ⟨hC, hempE⟩)
          · exact Or.inl (Or.inl hA)
          · rcases hE.mp hempE with hB | hD
            · exact Or.inl (Or.inr hB)
            · exact Or.inr ⟨hC, hD⟩
      · rw [if_neg hout]
        have houtF : (Ranges.Find rs r).2.2 = false := by simpa using hout
        have IH := ih (Ranges.Find rs r).2.1 acc hfuel2 hacc
        refine ⟨IH.1, ?_⟩
        rw [IH.2]
        ext y
        have hB_nC : ((Ranges.Find rs r).1.Pos ≤ y ∧ y < (Ranges.Find rs r).1.End) →
            y ∉ covered rs := fun hy => find_curr_not_covered rs r hinv houtF hy.1 hy.2
        have hE := hE_iff y
        simp only [Finset.mem_union, Finset.mem_inter, Finset.mem_Ico]
        constructor
        · rintro (hA | ⟨hC, hD⟩)
          · exact Or.inl hA
          · exact Or.inr ⟨hC, hE.mpr (Or.inr hD)⟩
        · rintro (hA | ⟨hC, hempE⟩)
          · exact Or.inl hA
          · rcases hE.mp hempE with hB | hD
            · exact absurd hC (hB_nC hB)
            · exact Or.inr ⟨hC, hD⟩

/-- Invariant and coverage of Ranges.Intersection. -/
theorem Intersection_spec (rs : Ranges) (r : Range) (hinv : RangeSetInv rs) :
    RangeSetInv (Ranges.Intersection rs r) ∧
    covered (Ranges.Intersection rs r) = covered rs ∩ Finset.Ico r.Pos r.End := by
  unfold Ranges.Intersection
  by_cases h : rs.isEmpty
  · rw [if_pos h]
    have : rs = [] := by simpa using h
    subst this
    exact ⟨inv_nil, by simp [covered_nil]⟩
  · rw [if_neg h]
    have H := intersectionLoop_spec rs hinv (r.Size.toNat + 1) r [] (by omega) inv_nil
    exact ⟨H.1, by rw [H.2]; simp [covered_nil]⟩

/-- Present is full coverage of the requested range. -/
theorem present_iff_subset (rs : Ranges) (r : Range) (hinv : RangeSetInv rs)
    (hr : 0 < r.Size) :
    Ranges.Present rs r = true ↔ Finset.Ico r.Pos r.End ⊆ covered rs := by
  have hemp : r.IsEmpty = false := Range.isEmpty_eq_false.mpr hr
  unfold Ranges.Present
  rw [if_neg (by simp [hemp])]
  have hspec := find_spec_all rs r hinv
  unfold FindSpec FindOutSpec at hspec
  obtain ⟨h1, h2, h3, h4, h5, h6, h7⟩ := hspec
  constructor
  · intro hp
    by_cases hpres : (Ranges.Find rs r).2.2 = false
    · rw [if_pos hpres] at hp
      exact absurd hp (by simp)
    · rw [if_neg hpres] at hp
      have hpres' : (Ranges.Find rs r).2.2 = true := by
        cases hc : (Ranges.Find rs r).2.2 with
        | true => rfl
        | false => exact absurd hc hpres
      by_cases hnext : (Ranges.Find rs r).2.1.IsEmpty
      · have hrEnd : r.End ≤ (Ranges.Find rs r).1.End := h7.mp hnext
        intro y hy
        rw [Finset.mem_Ico] at hy
        refine find_curr_subset rs r hinv hpres' ?_ ?_
        · omega
        · omega
      · rw [if_neg hnext] at hp
        exact absurd hp (by simp)
  · intro hsub
    have hy0 : r.Pos ∈ covered rs := by
      apply hsub
      rw [Finset.mem_Ico]
      constructor
      · exact le_refl _
      · simp only [Range.End]
        omega
    obtain ⟨m, hm, k1, k2⟩ := mem_covered.mp hy0
    have hpres : (Ranges.Find rs r).2.2 = true := by
      apply h2.mpr
      refine ⟨m, hm, k1, k2, ?_⟩
      simp only [Range.End]
      omega
    rw [if_neg (by simp [hpres])]
    by_cases hnext : (Ranges.Find rs r).2.1.IsEmpty
    · rw [if_pos hnext]
    · exfalso
      have hcEnd : (Ranges.Find rs r).1.End < r.End := by
        have hiff := h7
        have : ¬ ((Ranges.Find rs r).2.1.IsEmpty = true) := hnext
        rw [hiff] at this
        omega
      obtain ⟨q, hq, k1', k2', k3'⟩ := h3 hpres
      have hne : (q.Intersection r).IsEmpty = false := by
        cases hc : (q.Intersection r).IsEmpty with
        | false => rfl
        | true =>
          rw [inter_empty_char] at hc
          simp only [Range.End] at *
          omega
      obtain ⟨hf1, hf2, hf3, hf4, hf5, hf6, hf7⟩ := inter_nonempty_fields hne
      have hqEnd : (Ranges.Find rs r).1.End = q.End := by
        rw [k3']
        rcases hf6 with hcc | hcc
        · exact hcc
        · rw [k3'] at hcEnd
          omega
      apply end_not_covered hinv hq
      apply hsub
      rw [Finset.mem_Ico]
      constructor
      · rw [← hqEnd, k3']
        omega
      · rw [← hqEnd]
        exact hcEnd

/-- Claim C3: for every range set rs satisfying the RangeSet invariant and
every range r, Find(r) returns (curr, next, present) with curr.Pos = r.Pos;
if r intersects a member range at its start then curr is that intersection
and present = true, otherwise curr is the gap from r.Pos to the next member
range (or to the end of r) with present = false; and next is the remainder
of r beyond curr, empty when r is exhausted. In particular on
rs = [(0,10),(20,10)], Find((5,20)) returns ((5,5), (10,15), true). -/
theorem claim_find_spec :
    (∀ (rs : Ranges) (r : Range), RangeSetInv rs → FindSpec rs r) ∧
    Ranges.Find [⟨0, 10⟩, ⟨20, 10⟩] ⟨5, 20⟩ = (⟨5, 5⟩, ⟨10, 15⟩, true) :=
  ⟨find_spec_all, by decide⟩

/-- Witness for claim C3 at the concrete inputs of the claim. -/
theorem claim_find_spec_witness :
    RangeSetInv [⟨0, 10⟩, ⟨20, 10⟩] ∧ FindSpec [⟨0, 10⟩, ⟨20, 10⟩] ⟨5, 20⟩ :=
  ⟨by decide, claim_find_spec.1 _ _ (by decide)⟩

/-- Claim C4: for every sequence of Insert operations starting from the
empty range set, the resulting set satisfies the RangeSet invariant (every
member has positive size, members sorted with rs[i].End < rs[i+1].Pos for
every adjacent pair) and Size() equals the total number of covered bytes
with no double counting (the cardinality of the covered byte set). -/
theorem claim_insert_fold_invariant (ops : List Range) :
    RangeSetInv (ops.foldl Ranges.Insert []) ∧
    ((covered (ops.foldl Ranges.Insert [])).card : Int)
      = Ranges.Size (ops.foldl Ranges.Insert []) := by
  have main : ∀ (l : List Range) (rs : Ranges), RangeSetInv rs →
      RangeSetInv (l.foldl Ranges.Insert rs) := by
    intro l
    induction l with
    | nil => exact fun rs h => h
    | cons a l ihl => exact fun rs h => ihl _ (Insert_spec rs a h).1
  have hinv := main ops [] inv_nil
  exact ⟨hinv, covered_card hinv⟩

/-- Claim C5: insertion into a range set is idempotent: inserting r twice
in succession yields the same range set as inserting it once. -/
theorem claim_insert_idempotent (rs : Ranges) (r : Range)
    (hinv : RangeSetInv rs) :
    Ranges.Insert (Ranges.Insert rs r) r = Ranges.Insert rs r := by
  have h1 := Insert_spec rs r hinv
  have h2 := Insert_spec (Ranges.Insert rs r) r h1.1
  apply covered_eq_canonical h2.1 h1.1
  rw [h2.2, h1.2]
  ext y
  simp only [Finset.mem_union]
  tauto

/-- Witness for claim C5 at a concrete invariant range set. -/
theorem claim_insert_idempotent_witness :
    RangeSetInv [⟨0, 10⟩, ⟨20, 10⟩] ∧
    Ranges.Insert (Ranges.Insert [⟨0, 10⟩, ⟨20, 10⟩] ⟨5, 10⟩) ⟨5, 10⟩
      = Ranges.Insert [⟨0, 10⟩, ⟨20, 10⟩] ⟨5, 10⟩ :=
  ⟨by decide, claim_insert_idempotent _ _ (by decide)⟩

/-- Claim C6: for every invariant range set rs and every range r (of
non-negative size, as the data model prescribes), Present(r) is true if and
only if Intersection(r).Size() equals r.Size. -/
theorem claim_present_iff_intersection_size (rs : Ranges) (r : Range)
    (hinv : RangeSetInv rs) (hr : 0 ≤ r.Size) :
    Ranges.Present rs r = true ↔ (Ranges.Intersection rs r).Size = r.Size := by
  rcases lt_or_eq_of_le hr with hpos | heq
  · have hsub := present_iff_subset rs r hinv hpos
    have hint := Intersection_spec rs r hinv
    have hcard1 : ((covered (Ranges.Intersection rs r)).card : Int)
        = Ranges.Size (Ranges.Intersection rs r) := covered_card hint.1
    have hIco : ((Finset.Ico r.Pos r.End).card : Int) = r.Size := by
      rw [Int.card_Ico]
      have h9 : r.End - r.Pos = r.Size := by simp [Range.End]
      rw [h9, Int.toNat_of_nonneg hr]
    rw [hsub]
    constructor
    · intro hss
      have hcov : covered (Ranges.Intersection rs r) = Finset.Ico r.Pos r.End := by
        rw [hint.2]
        exact Finset.inter_eq_right.mpr hss
      rw [← hcard1, hcov, hIco]
    · intro hsz
      have hsubint : covered (Ranges.Intersection rs r) ⊆ Finset.Ico r.Pos r.End := by
        rw [hint.2]
        exact Finset.inter_subset_right
      have hcardeq : (covered (Ranges.Intersection rs r)).card
          = (Finset.Ico r.Pos r.End).card := by
        have h := hcard1
        rw [hsz, ← hIco] at h
        exact_mod_cast h
      have heqset := Finset.eq_of_subset_of_card_le hsubint (le_of_eq hcardeq.symm)
      rw [hint.2] at heqset
      exact Finset.inter_eq_right.mp heqset
  · have hemp : r.IsEmpty = true := Range.isEmpty_eq_true.mpr (by omega)
    have hP : Ranges.Present rs r = true := by
      unfold Ranges.Present
      rw [if_pos hemp]
    rw [hP]
    simp only [true_iff]
    unfold Ranges.Intersection
    by_cases h : rs.isEmpty
    · rw [if_pos h]
      have : rs = [] := by simpa using h
      subst this
      simp only [Ranges.Size, List.foldl_nil]
      omega
    · rw [if_neg h]
      have hfuel : r.Size.toNat + 1 = 0 + 1 := by omega
      rw [hfuel]
      simp only [Ranges.IntersectionLoop]
      rw [if_pos hemp]
      simp only [Ranges.Size, List.foldl_nil]
      omega

/-- Witness for claim C6 at a concrete invariant range set. -/
theorem claim_present_iff_intersection_size_witness :
    RangeSetInv [⟨0, 10⟩] ∧ 0 ≤ (⟨0, 4⟩ : Range).Size ∧
    (Ranges.Present [⟨0, 10⟩] ⟨0, 4⟩ = true ↔
      (Ranges.Intersection [⟨0, 10⟩] ⟨0, 4⟩).Size = (⟨0, 4⟩ : Range).Size) :=
  ⟨by decide, by decide,
    claim_present_iff_intersection_size _ _ (by decide) (by decide)⟩

end ranges

namespace vfs

/-- POSIX-shaped error values of the vfs package (vfs/errors section). -/
inductive Err
  | ECLOSED
  | EBADF
  | EEXIST
  | EINVAL
  | EPERM
  | EROFS
  | ENOENT
  | mkdirErr
  | openErr
  | fdCloseErr
  | storeErr
deriving DecidableEq, Repr

/-- Access mode of a handle (flags & accessModeMask), restricted to the
three valid values; the invalid fourth residue is modelled separately in
the open-mode selector. -/
inductive AccessMode
  | rdonly
  | wronly
  | rdwr
deriving DecidableEq, Repr

/-- Environment of an RWFileHandle run: the open flags it was constructed
with and the outcomes of the external collaborators (cache directory
creation, the cache/OS work inside openPending, the OS close of the cache
file descriptor, and the cache Store upload). Each failure flag injects
the corresponding error exactly where the source checks it. -/
structure Env where
  access : AccessMode
  createFlag : Bool
  exclFlag : Bool
  truncFlag : Bool
  mkdirFails : Bool
  openPendingFails : Bool
  fdCloseFails : Bool
  storeFails : Bool
deriving DecidableEq, Repr

/-- Combined state of one File and the RWFileHandle under scrutiny.
File fields follow the File struct (writers, readWriters,
readWriterClosing, modified, rwOpenCount, o as hasObject) plus the cache
facade's open-refcount for the file's path; handle fields follow the
RWFileHandle struct (closed, opened, writeCalled, changed). Handles are
identified by numbers; the modelled handle is 0. Counters are integers,
as in the source, so they can go negative. -/
structure VState where
  writers : List Nat
  readWriters : Int
  readWriterClosing : Bool
  modified : Bool
  rwOpenCount : Int
  hasObject : Bool
  cacheOpens : Int
  closed : Bool
  opened : Bool
  writeCalled : Bool
  changed : Bool
deriving DecidableEq, Repr

/-- Method File.addWriter: append the handle to writers; it is an
RWFileHandle, so readWriters is incremented. -/
def File.addWriter (h : Nat) (s : VState) : VState :=
  { s with writers := s.writers ++ [h], readWriters := s.readWriters + 1 }

/-- Method File.delWriter: remove the handle from writers when found
(first occurrence, as the source's linear scan does), decrement
readWriters (the handle is an RWFileHandle) whether or not it was found,
set readWriterClosing, fold in the modified flag, and report
lastWriterAndModified, clearing modified when reporting it. The deferred
applyPendingRename is a no-op here because no rename is pending in the
modelled state. -/
def File.delWriter (h : Nat) (modifiedCacheFile : Bool) (s : VState) :
    Bool × VState :=
  let s1 := if s.writers.contains h
    then { s with writers := s.writers.erase h }
    else s
  let s2 := { s1 with readWriters := s1.readWriters - 1, readWriterClosing := true }
  let s3 := if modifiedCacheFile then { s2 with modified := true } else s2
  let last := s3.writers.isEmpty && s3.modified
  (last, if last then { s3 with modified := false } else s3)

/-- Method File.finishWriterClose: reset the readWriterClosing flag (the
subsequent applyPendingRename is a no-op here, no rename being pending). -/
def File.finishWriterClose (s : VState) : VState :=
  { s with readWriterClosing := false }

/-- Method RWFileHandle.modified: the file needs writing back iff a write
was issued or the contents were changed some other way. -/
def RWFileHandle.modified (s : VState) : Bool :=
  s.writeCalled || s.changed

/-- Method RWFileHandle.openPending, modelled at the granularity the
claims need: returns immediately when already opened; otherwise the
cache/OS interactions of its body (cache Check, cache Fetch, OS open of
the cache file) are summarised by env.openPendingFails, and on success the
final lines of the source run: the handle becomes opened and the File's
rwOpenCount is incremented (addRWOpen). The branch-dependent size/changed
bookkeeping inside the body is not modelled; no claim depends on it. -/
def RWFileHandle.openPending (env : Env) (s : VState) : Except Err Unit × VState :=
  if s.opened then (Except.ok (), s)
  else if env.openPendingFails then (Except.error Err.openErr, s)
  else (Except.ok (), { s with opened := true, rwOpenCount := s.rwOpenCount + 1 })

/-- Tail of RWFileHandle.flushWrites after the delWriter call: the forced
openPending when the flags include O_CREATE or O_TRUNC, the stat-based
size refresh (size is not modelled), the close of the OS handle when
closeFile is set, and the cache Store when isCopied, which on success
binds the File's object (setObject). -/
def RWFileHandle.flushWritesBody (env : Env) (closeFile : Bool) (isCopied : Bool)
    (s : VState) : Except Err Unit × VState :=
  match (if env.createFlag || env.truncFlag
         then RWFileHandle.openPending env s
         else (Except.ok (), s)) with
  | (Except.error e, s2) => (Except.error e, s2)
  | (Except.ok _, s2) =>
    if s2.opened && closeFile && env.fdCloseFails then (Except.error Err.fdCloseErr, s2)
    else if isCopied then
      if env.storeFails then (Except.error Err.storeErr, s2)
      else (Except.ok (), { s2 with hasObject := true })
    else (Except.ok (), s2)

/-- Method RWFileHandle.flushWrites: flush pending writes to cloud
storage. Mirrors the source: early return when closed and not closing, or
never opened and read-only; otherwise a writer first runs delWriter with
the modified flag and defers finishWriterClose to the end of the call
(around every later return), then the body runs. -/
def RWFileHandle.flushWrites (env : Env) (closeFile : Bool) (s : VState) :
    Except Err Unit × VState :=
  if s.closed && !closeFile then (Except.ok (), s)
  else if !s.opened && env.access = AccessMode.rdonly then (Except.ok (), s)
  else
    let writer : Bool := decide (env.access ≠ AccessMode.rdonly)
    let step1 := if writer then File.delWriter 0 (RWFileHandle.modified s) s
                 else (false, s)
    let out := RWFileHandle.flushWritesBody env closeFile step1.1 step1.2
    (out.1, if writer then File.finishWriterClose out.2 else out.2)

/-- Method RWFileHandle.close: ECLOSED when already closed; otherwise mark
closed, run flushWrites with closeFile, and in the deferred block drop the
File's rwOpenCount when the handle is opened (checked after flushWrites,
which may have opened it) and drop the cache's open-refcount for the path
unconditionally. -/
def RWFileHandle.close (env : Env) (s : VState) : Except Err Unit × VState :=
  if s.closed then (Except.error Err.ECLOSED, s)
  else
    let out := RWFileHandle.flushWrites env true { s with closed := true }
    let s2 := if out.2.opened
      then { out.2 with rwOpenCount := out.2.rwOpenCount - 1 }
      else out.2
    (out.1, { s2 with cacheOpens := s2.cacheOpens - 1 })

/-- Method RWFileHandle.Flush: no-op when not opened, already closed, or
no Write has been called; otherwise run flushWrites without closing. -/
def RWFileHandle.Flush (env : Env) (s : VState) : Except Err Unit × VState :=
  if !s.opened then (Except.ok (), s)
  else if s.closed then (Except.ok (), s)
  else if !s.writeCalled then (Except.ok (), s)
  else RWFileHandle.flushWrites env false s

/-- Method RWFileHandle.Release: returns nil when the handle is already
closed, otherwise runs close and returns its result (the comment in the
source notes the KERNEL ignores the error; Release itself returns it). -/
def RWFileHandle.Release (env : Env) (s : VState) : Except Err Unit × VState :=
  if s.closed then (Except.ok (), s)
  else RWFileHandle.close env s

/-- Function newRWFileHandle: reject with EEXIST when O_CREATE and O_EXCL
are both set and the file exists; otherwise allocate the handle (fresh
handle fields), record the cache open, make the cache directory (undoing
the cache open on failure), register as writer unless read-only, and run
openPending eagerly when truncating or creating a non-existent file,
deregistering on failure. -/
def newRWFileHandle (env : Env) (s : VState) : Except Err Unit × VState :=
  if env.createFlag && env.exclFlag && s.hasObject then
    (Except.error Err.EEXIST, s)
  else
    let s1 := { s with closed := false, opened := false,
                       writeCalled := false, changed := false }
    let s2 := { s1 with cacheOpens := s1.cacheOpens + 1 }
    if env.mkdirFails then
      (Except.error Err.mkdirErr, { s2 with cacheOpens := s2.cacheOpens - 1 })
    else
      let s3 := if env.access ≠ AccessMode.rdonly then File.addWriter 0 s2 else s2
      if env.truncFlag || (env.createFlag && !s3.hasObject) then
        match RWFileHandle.openPending env s3 with
        | (Except.error e, s4) => (Except.error e, (File.delWriter 0 false s4).2)
        | (Except.ok _, s4) => (Except.ok (), s4)
      else (Except.ok (), s3)

/-- Cache mode configuration, strictly ordered Off < Minimal < Writes <
Full; the source compares the underlying integers. -/
inductive CacheMode
  | off
  | minimal
  | writes
  | full
deriving DecidableEq, Repr

/-- Underlying integer of a CacheMode constant. -/
def CacheMode.toNat : CacheMode → Nat
  | CacheMode.off => 0
  | CacheMode.minimal => 1
  | CacheMode.writes => 2
  | CacheMode.full => 3

/-- Residue of flags & accessModeMask: the three valid access modes plus
the invalid fourth value (O_WRONLY|O_RDWR), which Open rejects. -/
inductive RdwrMode
  | rdonly
  | wronly
  | rdwr
  | invalid
deriving DecidableEq, Repr

/-- Open flags as seen by File.Open: the access-mode residue and the
individual flag bits it consults. -/
structure OpenFlags where
  rdwr : RdwrMode
  append : Bool
  create : Bool
  excl : Bool
  sync : Bool
  trunc : Bool
deriving DecidableEq, Repr

/-- Handle variant (or early error) chosen by File.Open. -/
inductive OpenRoute
  | rwHandle
  | writeHandle
  | readHandle
  | errEINVAL
  | errEPERM
deriving DecidableEq, Repr

/-- Routing decision of File.Open: which handle constructor it dispatches
to (openRW, openWrite, openRead), or which early error it returns.
Mirrors the source order: the O_RDONLY|O_TRUNC EINVAL check, the switch
on the access mode (default EPERM), the O_APPEND read-forcing and O_TRUNC
write-forcing, then the cascade over cache mode and the cache state
(open count for the path, existence in the cache). -/
def File.openRoute (flags : OpenFlags) (cm : CacheMode) (cacheOpens : Nat)
    (cacheExists : Bool) : OpenRoute :=
  if flags.rdwr = RdwrMode.rdonly ∧ flags.trunc then OpenRoute.errEINVAL
  else
    let intents : Option (Bool × Bool) :=
      if flags.rdwr = RdwrMode.rdonly then some (true, false)
      else if flags.rdwr = RdwrMode.wronly then some (false, true)
      else if flags.rdwr = RdwrMode.rdwr then some (true, true)
      else none
    match intents with
    | none => OpenRoute.errEPERM
    | some (read0, write0) =>
      let read := read0 || flags.append
      let write := write0 || flags.trunc
      if CacheMode.minimal.toNat ≤ cm.toNat ∧ (0 < cacheOpens ∨ cacheExists = true) then
        OpenRoute.rwHandle
      else if read && write then
        (if CacheMode.minimal.toNat ≤ cm.toNat then OpenRoute.rwHandle
         else OpenRoute.writeHandle)
      else if write then
        (if CacheMode.writes.toNat ≤ cm.toNat then OpenRoute.rwHandle
         else OpenRoute.writeHandle)
      else if read then
        (if CacheMode.full.toNat ≤ cm.toNat then OpenRoute.rwHandle
         else OpenRoute.readHandle)
      else OpenRoute.errEPERM

/-- Modelled from the spec: the four-rule open-mode selector table exactly
as the specification words it (rules evaluated top-down, first match wins,
with O_APPEND forcing read intent and O_TRUNC forcing write intent before
the table is consulted; rule 4 requires cache mode = Full). The final
else branch is unreachable for a valid access mode. -/
def selectorSpec (flags : OpenFlags) (cm : CacheMode) (cacheOpens : Nat)
    (cacheExists : Bool) : OpenRoute :=
  let read := (flags.rdwr = RdwrMode.rdonly ∨ flags.rdwr = RdwrMode.rdwr) ∨
    flags.append = true
  let write := (flags.rdwr = RdwrMode.wronly ∨ flags.rdwr = RdwrMode.rdwr) ∨
    flags.trunc = true
  if CacheMode.minimal.toNat ≤ cm.toNat ∧ (0 < cacheOpens ∨ cacheExists = true) then
    OpenRoute.rwHandle
  else if read ∧ write then
    (if CacheMode.minimal.toNat ≤ cm.toNat then OpenRoute.rwHandle
     else OpenRoute.writeHandle)
  else if write then
    (if CacheMode.writes.toNat ≤ cm.toNat then OpenRoute.rwHandle
     else OpenRoute.writeHandle)
  else if read then
    (if cm = CacheMode.full then OpenRoute.rwHandle else OpenRoute.readHandle)
  else OpenRoute.errEPERM

/-- Sequential accumulation of the last writer error in File.Truncate's
delegation loop (err keeps the last non-nil truncateErr). -/
def lastWriterErr (results : List (Option Err)) : Option Err :=
  results.foldl (fun acc r => match r with | some e => some e | none => acc) none

/-- Method File.Truncate, modelled over the writers snapshot and the
optional remote object: with writers, delegate to each writer's Truncate
and return the last error; with no writers, compare o.Size() with the
requested size — a nil-pointer dereference (modelled as none) when o is
nil — and otherwise reopen write-only and truncate through the handle,
a path whose outcome is supplied as reopenResult since it runs through
the whole Open machinery. -/
def File.Truncate (reopenResult : Except Err Unit)
    (writerResults : List (Option Err)) (o : Option Int) (size : Int) :
    Option (Except Err Unit) :=
  if writerResults ≠ [] then
    some (match lastWriterErr writerResults with
          | some e => Except.error e
          | none => Except.ok ())
  else
    match o with
    | none => none
    | some osize =>
      if osize = size then some (Except.ok ())
      else some reopenResult

/-- File.delWriter leaves the cache refcount, closed/opened flags and the
rwOpenCount alone. -/
theorem delWriter_preserves (h : Nat) (m : Bool) (s : VState) :
    (File.delWriter h m s).2.cacheOpens = s.cacheOpens ∧
    (File.delWriter h m s).2.closed = s.closed ∧
    (File.delWriter h m s).2.opened = s.opened ∧
    (File.delWriter h m s).2.rwOpenCount = s.rwOpenCount := by
  unfold File.delWriter
  dsimp only
  split <;> split <;> split <;> simp

/-- openPending leaves the cache refcount and the closed flag alone. -/
theorem openPending_preserves (env : Env) (s : VState) :
    (RWFileHandle.openPending env s).2.cacheOpens = s.cacheOpens ∧
    (RWFileHandle.openPending env s).2.closed = s.closed := by
  unfold RWFileHandle.openPending
  split
  · simp
  · split <;> simp

/-- openPending never reports ECLOSED. -/
theorem openPending_no_eclosed (env : Env) (s : VState) :
    (RWFileHandle.openPending env s).1 ≠ Except.error Err.ECLOSED := by
  unfold RWFileHandle.openPending
  split
  · simp
  · split <;> simp

/-- The flushWrites body leaves the cache refcount and closed flag alone. -/
theorem flushWritesBody_preserves (env : Env) (cf ic : Bool) (s : VState) :
    (RWFileHandle.flushWritesBody env cf ic s).2.cacheOpens = s.cacheOpens ∧
    (RWFileHandle.flushWritesBody env cf ic s).2.closed = s.closed := by
  unfold RWFileHandle.flushWritesBody
  rcases hres : (if (env.createFlag || env.truncFlag : Bool)
      then RWFileHandle.openPending env s else (Except.ok (), s)) with ⟨r, s2⟩
  have hs2 : s2.cacheOpens = s.cacheOpens ∧ s2.closed = s.closed := by
    by_cases hC : (env.createFlag || env.truncFlag) = true
    · rw [if_pos hC] at hres
      have hp := openPending_preserves env s
      rw [hres] at hp
      exact hp
    · rw [if_neg hC] at hres
      cases hres
      exact ⟨rfl, rfl⟩
  cases r with
  | error e => exact hs2
  | ok u =>
    dsimp only
    split
    · exact hs2
    · split
      · split
        · exact hs2
        · simpa using hs2
      · exact hs2

/-- The flushWrites body never reports ECLOSED. -/
theorem flushWritesBody_no_eclosed (env : Env) (cf ic : Bool) (s : VState) :
    (RWFileHandle.flushWritesBody env cf ic s).1 ≠ Except.error Err.ECLOSED := by
  unfold RWFileHandle.flushWritesBody
  rcases hres : (if (env.createFlag || env.truncFlag : Bool)
      then RWFileHandle.openPending env s else (Except.ok (), s)) with ⟨r, s2⟩
  have hr : r ≠ Except.error Err.ECLOSED := by
    by_cases hC : (env.createFlag || env.truncFlag) = true
    · rw [if_pos hC] at hres
      have hp := openPending_no_eclosed env s
      rw [hres] at hp
      exact hp
    · rw [if_neg hC] at hres
      cases hres
      simp
  cases r with
  | error e => exact hr
  | ok u =>
    dsimp only
    split
    · simp
    · split
      · split <;> simp
      · simp

/-- flushWrites leaves the cache refcount and the closed flag alone. -/
theorem flushWrites_preserves (env : Env) (cf : Bool) (s : VState) :
    (RWFileHandle.flushWrites env cf s).2.cacheOpens = s.cacheOpens ∧
    (RWFileHandle.flushWrites env cf s).2.closed = s.closed := by
  unfold RWFileHandle.flushWrites
  split
  · simp
  · split
    · simp
    · dsimp only
      split
      · have h1 := delWriter_preserves 0 (RWFileHandle.modified s) s
        have h2 := flushWritesBody_preserves env cf
          (File.delWriter 0 (RWFileHandle.modified s) s).1
          (File.delWriter 0 (RWFileHandle.modified s) s).2
        simp only [File.finishWriterClose]
        exact ⟨h2.1.trans h1.1, h2.2.trans h1.2.1⟩
      · have h2 := flushWritesBody_preserves env cf false s
        exact h2

/-- flushWrites never reports ECLOSED. -/
theorem flushWrites_no_eclosed (env : Env) (cf : Bool) (s : VState) :
    (RWFileHandle.flushWrites env cf s).1 ≠ Except.error Err.ECLOSED := by
  unfold RWFileHandle.flushWrites
  split
  · simp
  · split
    · simp
    · dsimp only
      split
      · exact flushWritesBody_no_eclosed env cf _ _
      · exact flushWritesBody_no_eclosed env cf _ _

/-- close on an already-closed handle returns ECLOSED and leaves the state
untouched. -/
theorem close_of_closed (env : Env) {s : VState} (h : s.closed = true) :
    RWFileHandle.close env s = (Except.error Err.ECLOSED, s) := by
  unfold RWFileHandle.close
  rw [if_pos h]

/-- Claim C2: for every RW handle, the first Close returns nil or the
writeback error (never ECLOSED) and the second Close returns ECLOSED; the
cache open-refcount for the path drops by exactly one on the first Close,
unconditionally even when the writeback step fails, and the second Close
leaves the state untouched. -/
theorem claim_close_idempotent (env : Env) (s : VState) (h : s.closed = false) :
    (RWFileHandle.close env s).1
        = (RWFileHandle.flushWrites env true { s with closed := true }).1 ∧
    (RWFileHandle.close env s).1 ≠ Except.error Err.ECLOSED ∧
    (RWFileHandle.close env s).2.cacheOpens = s.cacheOpens - 1 ∧
    (RWFileHandle.close env (RWFileHandle.close env s).2).1
        = Except.error Err.ECLOSED ∧
    (RWFileHandle.close env (RWFileHandle.close env s).2).2
        = (RWFileHandle.close env s).2 := by
  have hpres := flushWrites_preserves env true { s with closed := true }
  have hclosed2 : (RWFileHandle.close env s).2.closed = true := by
    unfold RWFileHandle.close
    rw [if_neg (by simp [h])]
    dsimp only
    split <;> simp [hpres.2]
  refine ⟨?_, ?_, ?_, ?_, ?_⟩
  · unfold RWFileHandle.close
    rw [if_neg (by simp [h])]
  · unfold RWFileHandle.close
    rw [if_neg (by simp [h])]
    exact flushWrites_no_eclosed env true _
  · unfold RWFileHandle.close
    rw [if_neg (by simp [h])]
    dsimp only
    split <;> simp [hpres.1]
  · rw [close_of_closed env hclosed2]
  · rw [close_of_closed env hclosed2]

/-- Witness for claim C2 at a concrete open handle with a failing Store. -/
theorem claim_close_idempotent_witness :
    (RWFileHandle.close
        ⟨AccessMode.rdwr, false, false, false, false, false, false, true⟩
        ⟨[0], 1, false, false, 1, true, 1, false, true, true, false⟩).2.cacheOpens
      = (⟨[0], 1, false, false, 1, true, 1, false, true, true, false⟩
          : VState).cacheOpens - 1 ∧
    (RWFileHandle.close
        ⟨AccessMode.rdwr, false, false, false, false, false, false, true⟩
        (RWFileHandle.close
          ⟨AccessMode.rdwr, false, false, false, false, false, false, true⟩
          ⟨[0], 1, false, false, 1, true, 1, false, true, true, false⟩).2).1
      = Except.error Err.ECLOSED :=
  ⟨(claim_close_idempotent _ _ rfl).2.2.1,
   (claim_close_idempotent _ _ rfl).2.2.2.1⟩

/-- Claim C7: constructing an RW handle with O_CREATE and O_EXCL both set
on an existing file fails with EEXIST, before the cache open is recorded
and before the writers set is touched: the state is returned unchanged. -/
theorem claim_excl_create_eexist (env : Env) (s : VState)
    (hc : env.createFlag = true) (he : env.exclFlag = true)
    (hobj : s.hasObject = true) :
    newRWFileHandle env s = (Except.error Err.EEXIST, s) ∧
    (newRWFileHandle env s).2.cacheOpens = s.cacheOpens ∧
    (newRWFileHandle env s).2.writers = s.writers := by
  have hred : newRWFileHandle env s = (Except.error Err.EEXIST, s) := by
    unfold newRWFileHandle
    rw [if_pos (by simp [hc, he, hobj])]
  exact ⟨hred, by rw [hred], by rw [hred]⟩

/-- Witness for claim C7 at a concrete existing file. -/
theorem claim_excl_create_eexist_witness :
    newRWFileHandle
        ⟨AccessMode.rdwr, true, true, false, false, false, false, false⟩
        ⟨[], 0, false, false, 0, true, 5, false, false, false, false⟩
      = (Except.error Err.EEXIST,
         ⟨[], 0, false, false, 0, true, 5, false, false, false, false⟩) :=
  (claim_excl_create_eexist _ _ rfl rfl rfl).1

/-- Counterexample to claim C8: Release on an open handle whose writeback
Store fails returns the store error, not nil — Release does not swallow
errors. -/
theorem claim_release_counterexample :
    (RWFileHandle.Release
        ⟨AccessMode.rdwr, false, false, false, false, false, false, true⟩
        ⟨[0], 1, false, false, 1, true, 1, false, true, true, false⟩).1
      = Except.error Err.storeErr ∧
    Except.error Err.storeErr ≠ (Except.ok () : Except Err Unit) := by
  constructor
  · rfl
  · simp

/-- Claim C8 as amended: Release is an idempotent wrapper over Close —
on an already-closed handle it returns nil, on an open handle it returns
exactly what Close returns (errors included; the mount layer is what
discards them), and it never returns ECLOSED. -/
theorem claim_release_amended (env : Env) (s : VState) :
    (s.closed = true → RWFileHandle.Release env s = (Except.ok (), s)) ∧
    (s.closed = false → RWFileHandle.Release env s = RWFileHandle.close env s) ∧
    (RWFileHandle.Release env s).1 ≠ Except.error Err.ECLOSED := by
  refine ⟨?_, ?_, ?_⟩
  · intro h
    unfold RWFileHandle.Release
    rw [if_pos h]
  · intro h
    unfold RWFileHandle.Release
    rw [if_neg (by simp [h])]
  · unfold RWFileHandle.Release
    split
    · simp
    · rename_i h2
      have hcl : s.closed = false := by
        cases hc : s.closed
        · rfl
        · exact absurd hc h2
      unfold RWFileHandle.close
      rw [if_neg (by simp [hcl])]
      dsimp only
      exact flushWrites_no_eclosed env true _

/-- Witness for the amended claim C8 on an already-closed handle. -/
theorem claim_release_amended_witness :
    RWFileHandle.Release
        ⟨AccessMode.rdwr, false, false, false, false, false, false, false⟩
        ⟨[], 0, false, false, 0, true, 0, true, true, false, false⟩
      = (Except.ok (),
         ⟨[], 0, false, false, 0, true, 0, true, true, false, false⟩) :=
  (claim_release_amended _ _).1 rfl

/-- Claim C9: File.Truncate dereferences the nil object exactly when the
writers snapshot is empty and the object is nil; with writers it delegates
to them, and with a non-nil object it is total. -/
theorem claim_truncate_nil_object (rr : Except Err Unit)
    (writerResults : List (Option Err)) (o : Option Int) (size : Int) :
    File.Truncate rr writerResults o size = none ↔
      writerResults = [] ∧ o = none := by
  unfold File.Truncate
  split
  · rename_i hW
    constructor
    · intro hcontra
      exact absurd hcontra (by simp)
    · rintro ⟨h1, _⟩
      exact absurd h1 hW
  · rename_i hW
    have hWnil : writerResults = [] := by
      by_contra hc
      exact hW hc
    cases o with
    | none => simp [hWnil]
    | some osize =>
      show (if osize = size then some (Except.ok ()) else some rr)
          = none ↔ writerResults = [] ∧ some osize = none
      constructor
      · intro hcontra
        split at hcontra <;> exact absurd hcontra (by simp)
      · rintro ⟨_, h2⟩
        exact Option.noConfusion h2

/-- Claim C10: delWriter decrements readWriters and sets
readWriterClosing even when the handle is absent from writers; hence for
an RW handle that performed a write, Flush followed by Close runs
delWriter twice for the same handle and leaves readWriters at -1. -/
theorem claim_delwriter_underflow (s : VState) (h : Nat) (m : Bool)
    (habs : s.writers.contains h = false) :
    ((File.delWriter h m s).2.readWriters = s.readWriters - 1 ∧
     (File.delWriter h m s).2.readWriterClosing = true) ∧
    (RWFileHandle.close
        ⟨AccessMode.rdwr, false, false, false, false, false, false, false⟩
        (RWFileHandle.Flush
            ⟨AccessMode.rdwr, false, false, false, false, false, false, false⟩
            ⟨[0], 1, false, false, 1, true, 1, false, true, true, false⟩).2).2.readWriters
      = -1 := by
  constructor
  · unfold File.delWriter
    rw [if_neg (by rw [habs]; simp)]
    dsimp only
    split <;> split <;> simp
  · rfl

/-- Witness for claim C10 at a concrete state with the handle absent. -/
theorem claim_delwriter_underflow_witness :
    (([] : List Nat).contains 0 = false) ∧
    ((File.delWriter 0 true
        ⟨[], 0, false, false, 1, true, 1, false, true, true, false⟩).2.readWriters
      = (⟨[], 0, false, false, 1, true, 1, false, true, true, false⟩
          : VState).readWriters - 1 ∧
     (File.delWriter 0 true
        ⟨[], 0, false, false, 1, true, 1, false, true, true, false⟩).2.readWriterClosing
      = true) :=
  ⟨rfl, (claim_delwriter_underflow
      ⟨[], 0, false, false, 1, true, 1, false, true, true, false⟩ 0 true rfl).1⟩

/-- Counterexample to claim C1: opening read-only with O_TRUNC is
rejected with EINVAL before the table is consulted, while the spec's
four-rule table (write intent forced by O_TRUNC) selects the write-only
handle. -/
theorem claim_open_route_counterexample :
    File.openRoute ⟨RdwrMode.rdonly, false, false, false, false, true⟩
        CacheMode.off 0 false = OpenRoute.errEINVAL ∧
    selectorSpec ⟨RdwrMode.rdonly, false, false, false, false, true⟩
        CacheMode.off 0 false = OpenRoute.writeHandle ∧
    OpenRoute.errEINVAL ≠ OpenRoute.writeHandle := by
  refine ⟨by decide, by decide, by decide⟩

/-- Claim C1 as amended: for every flag combination with a valid access
mode, except read-only combined with O_TRUNC (which returns EINVAL before
the table is consulted), and every cache-mode setting, File.Open routes
to the handle variant given by the spec's four-rule table, with O_APPEND
forcing read intent and O_TRUNC forcing write intent first. -/
theorem claim_open_route_amended (flags : OpenFlags) (cm : CacheMode)
    (opens : Nat) (ex : Bool)
    (hvalid : flags.rdwr ≠ RdwrMode.invalid)
    (hnotinval : ¬(flags.rdwr = RdwrMode.rdonly ∧ flags.trunc = true)) :
    File.openRoute flags cm opens ex = selectorSpec flags cm opens ex := by
  rcases flags with ⟨rmode, append, create, excl, sync, trunc⟩
  by_cases ho : 0 < opens
  · cases rmode <;> cases cm <;> cases append <;> cases trunc <;> cases ex <;>
      simp_all [File.openRoute, selectorSpec, CacheMode.toNat]
  · have ho0 : opens = 0 := by omega
    subst ho0
    cases rmode <;> cases cm <;> cases append <;> cases trunc <;> cases ex <;>
      simp_all [File.openRoute, selectorSpec, CacheMode.toNat]

/-- Witness for the amended claim C1 at a concrete flag combination. -/
theorem claim_open_route_amended_witness :
    ((⟨RdwrMode.rdwr, false, false, false, false, false⟩ : OpenFlags).rdwr
        ≠ RdwrMode.invalid) ∧
    File.openRoute ⟨RdwrMode.rdwr, false, false, false, false, false⟩
        CacheMode.off 0 false
      = selectorSpec ⟨RdwrMode.rdwr, false, false, false, false, false⟩
        CacheMode.off 0 false :=
  ⟨by decide, claim_open_route_amended _ _ _ _ (by decide) (by decide)⟩

end vfs
